import Mathlib

/-!
Verification development for the stock-take tally application
(`stocktakewx.app.py`).  The Python source is shallowly embedded:

* Python `float` quantities are modelled as exact rationals `ℚ` (every
  IEEE double is a decimal rational, and every quantity the program
  manipulates originates from a finite decimal literal);
* Python `dict` / `collections.Counter` are modelled as association
  lists that keep insertion order, with the dict update/insert
  discipline (update in place, insert at the end), which is exactly
  CPython's observable dict behaviour;
* the regular-expression scan `re.findall(r"(\S+)\s*(-?[\d]+(?:\.[\d]+)?)", text)`
  is modelled operationally, including the greedy backtracking of
  `\S+` and the left-to-right non-overlapping scan of `findall`;
* the Streamlit session state (`all_lists`, `current_list`, `history`)
  becomes an explicit state record, and every button callback becomes a
  pure state transformer.
-/

namespace StockTake

/-! ## Character classes (ASCII fragments of Python's `\s`, `\d`) -/

/-- Python's whitespace class `\s` restricted to ASCII: space, tab,
newline, carriage return, vertical tab, form feed. -/
def pyIsSpace (c : Char) : Bool :=
  c = ' ' || c = Char.ofNat 9 || c = Char.ofNat 10 || c = Char.ofNat 13 ||
  c = Char.ofNat 11 || c = Char.ofNat 12

/-- Python's digit class `\d` restricted to ASCII: `'0'`–`'9'`. -/
def pyIsDigit (c : Char) : Bool :=
  48 ≤ c.toNat && c.toNat ≤ 57

/-- Numeric value of a decimal digit character. -/
def digitVal (c : Char) : ℕ := c.toNat - 48

/-- Value of a big-endian list of decimal digit characters
(`digitsValN ['1','2'] = 12`). -/
def digitsValN (l : List Char) : ℕ :=
  l.foldl (fun a c => 10 * a + digitVal c) 0

theorem length_dropWhile_le (p : Char → Bool) (l : List Char) :
    (l.dropWhile p).length ≤ l.length := by
  conv_rhs => rw [← List.takeWhile_append_dropWhile (p := p) (l := l)]
  rw [List.length_append]
  omega

/-! ## The number fragment of the entry regex

`-?[\d]+(?:\.[\d]+)?`, anchored at the head of the input.  Returns the
value (as an exact rational) and the unconsumed rest.  The greedy
sub-matches of this fragment never need to backtrack for the whole
pattern to succeed, so a committed scan is faithful to the regex. -/

/-- Rational value of a matched number: optional `-` sign, integer
digits `ds`, fraction digits `fs` (empty when there is no fraction). -/
def numVal (sgn : Bool) (ds fs : List Char) : ℚ :=
  (if sgn then -1 else 1) * ((digitsValN ds : ℚ) + (digitsValN fs : ℚ) / 10 ^ fs.length)

/-- Match `[\d]+(?:\.[\d]+)?` (the sign already consumed) at the head
of `l1`. -/
def matchNumCore (l1 : List Char) (sgn : Bool) : Option (ℚ × List Char) :=
  if (l1.takeWhile pyIsDigit).isEmpty then none
  else if (l1.dropWhile pyIsDigit).head? = some '.' then
    if ((l1.dropWhile pyIsDigit).tail.takeWhile pyIsDigit).isEmpty then
      some (numVal sgn (l1.takeWhile pyIsDigit) [], l1.dropWhile pyIsDigit)
    else
      some (numVal sgn (l1.takeWhile pyIsDigit) ((l1.dropWhile pyIsDigit).tail.takeWhile pyIsDigit),
            (l1.dropWhile pyIsDigit).tail.dropWhile pyIsDigit)
  else some (numVal sgn (l1.takeWhile pyIsDigit) [], l1.dropWhile pyIsDigit)

/-- Match `-?[\d]+(?:\.[\d]+)?` at the head of `l`; on success return
the value and the rest of the input. -/
def matchNum (l : List Char) : Option (ℚ × List Char) :=
  if l.head? = some '-' then matchNumCore l.tail true else matchNumCore l false

theorem matchNumCore_length {l1 : List Char} {sgn : Bool} {q : ℚ} {r : List Char}
    (h : matchNumCore l1 sgn = some (q, r)) : r.length < l1.length := by
  have hsplit : (l1.takeWhile pyIsDigit).length + (l1.dropWhile pyIsDigit).length = l1.length := by
    rw [← List.length_append, List.takeWhile_append_dropWhile]
  unfold matchNumCore at h
  split_ifs at h with h1 h2 h3
  · -- fraction present and nonempty is the `else` of h3; here fs empty: r = l2
    obtain ⟨-, hr⟩ := Prod.mk.injEq .. ▸ Option.some.injEq .. ▸ h
    have hds : (l1.takeWhile pyIsDigit).length ≠ 0 := by
      simp only [ne_eq, List.length_eq_zero]
      intro hnil
      simp [hnil] at h1
    subst hr
    omega
  · -- fraction nonempty: r = dropWhile of l2.tail
    obtain ⟨-, hr⟩ := Prod.mk.injEq .. ▸ Option.some.injEq .. ▸ h
    have hds : (l1.takeWhile pyIsDigit).length ≠ 0 := by
      simp only [ne_eq, List.length_eq_zero]
      intro hnil
      simp [hnil] at h1
    have htail : (l1.dropWhile pyIsDigit).tail.length + 1 = (l1.dropWhile pyIsDigit).length := by
      cases hl : l1.dropWhile pyIsDigit with
      | nil => rw [hl] at h2; simp at h2
      | cons a t => simp
    have hlen : ((l1.dropWhile pyIsDigit).tail.dropWhile pyIsDigit).length ≤
        (l1.dropWhile pyIsDigit).tail.length := length_dropWhile_le _ _
    subst hr
    omega
  · -- no fraction: r = l2
    obtain ⟨-, hr⟩ := Prod.mk.injEq .. ▸ Option.some.injEq .. ▸ h
    have hds : (l1.takeWhile pyIsDigit).length ≠ 0 := by
      simp only [ne_eq, List.length_eq_zero]
      intro hnil
      simp [hnil] at h1
    subst hr
    omega

theorem matchNum_length {l : List Char} {q : ℚ} {r : List Char}
    (h : matchNum l = some (q, r)) : r.length < l.length := by
  unfold matchNum at h
  split_ifs at h with h1
  · have := matchNumCore_length h
    have : r.length < l.tail.length := this
    have htail : l.tail.length ≤ l.length := by cases l <;> simp
    omega
  · exact matchNumCore_length h

/-! ## The full entry pattern `(\S+)\s*(-?[\d]+(?:\.[\d]+)?)` -/

/-- Greedy backtracking of `\S+`: with `tok` the maximal non-whitespace
run at the current position and `rest1` the input after it, try code
lengths `n, n-1, …, 1` (longest first).  When the code takes the whole
run, the `\s*` in between may consume the following whitespace; for a
shorter code the next character is non-whitespace, so `\s*` can only
match the empty string.  On success return the chosen code length, the
number value and the rest of the input. -/
def trySplitFrom : ℕ → List Char → List Char → Option (ℕ × ℚ × List Char)
  | 0, _, _ => none
  | j + 1, tok, rest1 =>
    match matchNum (if j + 1 = tok.length then rest1.dropWhile pyIsSpace
                    else tok.drop (j + 1) ++ rest1) with
    | some (q, rest2) => some (j + 1, q, rest2)
    | none => trySplitFrom j tok rest1

theorem trySplitFrom_length {n : ℕ} {tok rest1 : List Char} {j : ℕ} {q : ℚ} {r : List Char}
    (hn : n ≤ tok.length)
    (h : trySplitFrom n tok rest1 = some (j, q, r)) :
    r.length < tok.length + rest1.length := by
  induction n with
  | zero => simp [trySplitFrom] at h
  | succ m ih =>
    unfold trySplitFrom at h
    rcases hm : matchNum (if m + 1 = tok.length then rest1.dropWhile pyIsSpace
                          else tok.drop (m + 1) ++ rest1) with - | ⟨q', r'⟩
    · rw [hm] at h
      exact ih (by omega) h
    · rw [hm] at h
      obtain ⟨-, -, hr⟩ : m + 1 = j ∧ q' = q ∧ r' = r := by
        simpa using h
      subst hr
      have hlt := matchNum_length hm
      split_ifs at hlt with hcase
      · have : (rest1.dropWhile pyIsSpace).length ≤ rest1.length := length_dropWhile_le _ _
        omega
      · rw [List.length_append, List.length_drop] at hlt
        omega

/-- The scan loop of `re.findall`, with explicit fuel (one unit per
scan position; since every step consumes at least one character,
`l.length` units always suffice — see `findallFuel_congr`).  At each
position, if the pattern matches (with `\S+` starting at a
non-whitespace character), emit the two groups and resume after the
match; otherwise advance one character. -/
def findallFuel : ℕ → List Char → List (String × ℚ)
  | 0, _ => []
  | _, [] => []
  | fuel + 1, c :: cs =>
    if pyIsSpace c then findallFuel fuel cs
    else
      match trySplitFrom ((c :: cs).takeWhile (fun d => !pyIsSpace d)).length
          ((c :: cs).takeWhile (fun d => !pyIsSpace d))
          ((c :: cs).dropWhile (fun d => !pyIsSpace d)) with
      | some (j, q, rest2) =>
        (String.mk (((c :: cs).takeWhile (fun d => !pyIsSpace d)).take j), q) ::
          findallFuel fuel rest2
      | none => findallFuel fuel cs

theorem findallFuel_nil (f : ℕ) : findallFuel f [] = [] := by
  cases f <;> rfl

/-- The fuel is irrelevant as soon as it covers the input length:
every scan step consumes at least one character. -/
theorem findallFuel_congr (f1 : ℕ) : ∀ (f2 : ℕ) (l : List Char),
    l.length ≤ f1 → l.length ≤ f2 → findallFuel f1 l = findallFuel f2 l := by
  induction f1 with
  | zero =>
    intro f2 l h1 _
    have : l = [] := by
      cases l
      · rfl
      · simp at h1
    subst this
    rw [findallFuel_nil, findallFuel_nil]
  | succ m ih =>
    intro f2 l h1 h2
    cases l with
    | nil => rw [findallFuel_nil, findallFuel_nil]
    | cons c cs =>
      cases f2 with
      | zero => simp at h2
      | succ n =>
        have hcs : cs.length ≤ m := by simpa using h1
        have hcs2 : cs.length ≤ n := by simpa using h2
        show findallFuel (m + 1) (c :: cs) = findallFuel (n + 1) (c :: cs)
        unfold findallFuel
        split_ifs with hws
        · exact ih n cs hcs hcs2
        · rcases hts : trySplitFrom ((c :: cs).takeWhile (fun d => !pyIsSpace d)).length
              ((c :: cs).takeWhile (fun d => !pyIsSpace d))
              ((c :: cs).dropWhile (fun d => !pyIsSpace d)) with - | ⟨j, q, rest2⟩
          · simp only [hts]
            exact ih n cs hcs hcs2
          · have hlt := trySplitFrom_length (Nat.le_refl _) hts
            have hsplit : ((c :: cs).takeWhile (fun d => !pyIsSpace d)).length +
                ((c :: cs).dropWhile (fun d => !pyIsSpace d)).length = (c :: cs).length := by
              rw [← List.length_append, List.takeWhile_append_dropWhile]
            simp only [List.length_cons] at hsplit
            have hr2 : rest2.length ≤ m := by omega
            have hr2' : rest2.length ≤ n := by omega
            simp only [hts]
            rw [ih n rest2 hr2 hr2']

/-- The left-to-right non-overlapping scan of
`re.findall(r"(\S+)\s*(-?[\d]+(?:\.[\d]+)?)", ·)`. -/
def findall (l : List Char) : List (String × ℚ) := findallFuel l.length l

/-- `re.findall(r"(\S+)\s*(-?[\d]+(?:\.[\d]+)?)", text)` with each
quantity group converted by `float`, i.e. the parser extraction of
`add_to_total` (src/stocktakewx.app.py line 145). -/
def parse (text : String) : List (String × ℚ) := findall text.data

example : parse "ABC-1 3 XYZ -2.5" = [("ABC-1", (3 : ℚ)), ("XYZ", (-5 : ℚ) / 2)] := by
  with_unfolding_all decide
example : parse "item77" = [("item7", (7 : ℚ))] := by with_unfolding_all decide
example : parse "7" = [] := by with_unfolding_all decide
example : parse "1.23" = [("1.2", (3 : ℚ))] := by with_unfolding_all decide
example : parse "" = [] := by with_unfolding_all decide
example : parse "a-" = [] := by with_unfolding_all decide
example : parse "-1" = [("-", (1 : ℚ))] := by with_unfolding_all decide

/-! ## Counters and the list collection

A Python `dict` (and `collections.Counter`) preserves insertion order:
updating an existing key keeps its position, inserting a new key
appends at the end.  We model both as association lists with that
discipline. -/

/-- A tally: `collections.Counter` mapping code → quantity. -/
abbrev Tally := List (String × ℚ)

/-- The collection of lists: `st.session_state.all_lists`. -/
abbrev Collection := List (String × Tally)

/-- Python `key in d`. -/
def hasKey {α : Type} : List (String × α) → String → Bool
  | [], _ => false
  | (k, _) :: rest, c => if k = c then true else hasKey rest c

/-- `Counter.__getitem__`: the stored value, `0` when absent. -/
def tallyGet : Tally → String → ℚ
  | [], _ => 0
  | (k, v) :: rest, c => if k = c then v else tallyGet rest c

/-- Update the (unique) entry of an existing key in place. -/
def bump : List (String × ℚ) → String → ℚ → List (String × ℚ)
  | [], _, _ => []
  | (k, v) :: rest, c, q => if k = c then (k, v + q) :: rest else (k, v) :: bump rest c q

/-- `counter[code] += qty` — dict semantics: update in place when the
key exists, append a fresh entry otherwise. -/
def tallyAdd (t : Tally) (c : String) (q : ℚ) : Tally :=
  if hasKey t c then bump t c q else t ++ [(c, q)]

/-- The loop `for code, qty in matches: counter[code] += float(qty)`
(src/stocktakewx.app.py lines 150–151). -/
def addEntries (t : Tally) (ps : List (String × ℚ)) : Tally :=
  ps.foldl (fun acc p => tallyAdd acc p.1 p.2) t

/-- Sum of the quantities a pair sequence carries for one code. -/
def sumFor (c : String) (ps : List (String × ℚ)) : ℚ :=
  ((ps.filter (fun p => p.1 = c)).map Prod.snd).sum

/-- `all_lists[name]`: the tally stored under a (present) key. -/
def lookupTally : Collection → String → Tally
  | [], _ => []
  | (k, v) :: rest, c => if k = c then v else lookupTally rest c

/-- `d[name] = v` on the collection when `name` is present: replace the
value in place. -/
def updateKey : Collection → String → Tally → Collection
  | [], _, _ => []
  | (k, v) :: rest, c, t => if k = c then (k, t) :: rest else (k, v) :: updateKey rest c t

/-- `d.pop(name)`: remove the entry of a (present) key. -/
def removeKey : Collection → String → Collection
  | [], _ => []
  | (k, v) :: rest, c => if k = c then rest else (k, v) :: removeKey rest c

/-! ## The session state machine

`st.session_state` fields relevant to the core: `all_lists`,
`current_list`, `history`.  The input widgets (`input_text`,
`new_list_name`) become parameters of the operations.  A history entry
is the dict comprehension `{k: cnt.copy() for k, cnt in all_lists.items()}`
— in a pure model this deep copy is the collection value itself. -/

structure AppState where
  all_lists : Collection
  current : Option String
  history : List Collection
deriving DecidableEq, Repr

/-- `record_history` (lines 138–141): push a deep copy of the whole
collection onto the history stack (Python `list.append`, i.e. at the
end). -/
def record_history (s : AppState) : AppState :=
  { s with history := s.history ++ [s.all_lists] }

/-- Python `str.strip()` restricted to ASCII whitespace. -/
def pyStrip (l : List Char) : List Char :=
  ((l.dropWhile pyIsSpace).reverse.dropWhile pyIsSpace).reverse

/-- `create_new_list` (lines 91–106): trim the proposed name; abort on
empty or duplicate; otherwise snapshot, insert an empty tally and make
it current. -/
def create_new_list (s : AppState) (rawName : String) : AppState :=
  if String.mk (pyStrip rawName.data) = "" then s
  else if hasKey s.all_lists (String.mk (pyStrip rawName.data)) then s
  else { all_lists := s.all_lists ++ [(String.mk (pyStrip rawName.data), [])],
         current := some (String.mk (pyStrip rawName.data)),
         history := s.history ++ [s.all_lists] }

/-- `delete_current_list` (lines 108–119): abort when no list is
selected (`None` or the falsy `""`) or the selected name is absent;
otherwise snapshot, remove the list and clear the selection. -/
def delete_current_list (s : AppState) : AppState :=
  match s.current with
  | none => s
  | some name =>
    if name = "" then s
    else if hasKey s.all_lists name then
      { all_lists := removeKey s.all_lists name,
        current := none,
        history := s.history ++ [s.all_lists] }
    else s

/-- `add_to_total` (lines 143–154): parse the free text; abort with a
warning when nothing matches (before any history push); otherwise
snapshot and accumulate into the current list.  The callback operates
on the `counter`/`current` bound by the script body, which `st.stop()`s
unless `current` names an existing list (lines 128–133); that guard is
part of the model. -/
def add_to_total (s : AppState) (text : String) : AppState :=
  match s.current with
  | none => s
  | some name =>
    if hasKey s.all_lists name then
      if parse text = [] then s
      else { all_lists := updateKey s.all_lists name (addEntries (lookupTally s.all_lists name) (parse text)),
             current := s.current,
             history := s.history ++ [s.all_lists] }
    else s

/-- `clear_all` (lines 156–160): snapshot unconditionally, then replace
the current tally with an empty counter.  Same script-body guard as
`add_to_total`. -/
def clear_all (s : AppState) : AppState :=
  match s.current with
  | none => s
  | some name =>
    if hasKey s.all_lists name then
      { all_lists := updateKey s.all_lists name [],
        current := s.current,
        history := s.history ++ [s.all_lists] }
    else s

/-- `undo` (lines 162–168): abort with a warning when the history is
empty; otherwise pop the most recent snapshot (end of the Python list)
and install it as the live collection.  `current_list` is left
untouched. -/
def undo (s : AppState) : AppState :=
  if s.history = [] then s
  else { all_lists := s.history.getLastD [],
         current := s.current,
         history := s.history.dropLast }

/-- The user actions of the core state machine. -/
inductive Action where
  | create (rawName : String)
  | delete
  | add (text : String)
  | clear
  | undo
deriving DecidableEq, Repr

def step (s : AppState) : Action → AppState
  | .create rawName => create_new_list s rawName
  | .delete => delete_current_list s
  | .add text => add_to_total s text
  | .clear => clear_all s
  | .undo => undo s

def run (s : AppState) (acts : List Action) : AppState := acts.foldl step s

/-- Session start (lines 68–73): the collection comes from the
persistence load, no list is selected, the history is empty. -/
def initState (loaded : Collection) : AppState :=
  { all_lists := loaded, current := none, history := [] }

/-- The SelectionState invariant of the spec: the selection is the
sentinel (`None`) or names a list present in the collection. -/
def selOk (s : AppState) : Bool :=
  match s.current with
  | none => true
  | some n => hasKey s.all_lists n

/-! ## The query engine: `sort_key` and the sorted overview

`sort_key` (lines 189–191) classifies a code with
`re.fullmatch(r'[\d\.]+', code)` — one or more characters, each a
digit or a dot — and converts matching codes with Python `float`,
which raises `ValueError` when the code has more than one dot (or no
digit at all).  The raised exception is modelled as `none`. -/

/-- `re.fullmatch(r'[\d\.]+', code)`: non-empty, every character a
digit or a literal dot. -/
def isNumericCode (l : List Char) : Bool :=
  !l.isEmpty && l.all (fun c => pyIsDigit c || c = '.')

/-- Python `float(code)` on a string of digits and dots: defined when
there is at most one dot and at least one digit, `ValueError` (`none`)
otherwise. -/
def floatOfCode (l : List Char) : Option ℚ :=
  match l.dropWhile pyIsDigit with
  | [] => if (l.takeWhile pyIsDigit).isEmpty then none
          else some (digitsValN (l.takeWhile pyIsDigit) : ℚ)
  | c :: rest =>
    if c = '.' && rest.all pyIsDigit && !((l.takeWhile pyIsDigit).isEmpty && rest.isEmpty) then
      some ((digitsValN (l.takeWhile pyIsDigit) : ℚ) + (digitsValN rest : ℚ) / 10 ^ rest.length)
    else none

/-- The Python sort key `(0, float(code))` / `(1, code)`. -/
inductive SKey where
  | num (q : ℚ)
  | str (s : List Char)
deriving DecidableEq, Repr

/-- `sort_key` (lines 189–191); `none` models the uncaught
`ValueError` from `float`. -/
def sort_key (code : String) : Option SKey :=
  if isNumericCode code.data then (floatOfCode code.data).map SKey.num
  else some (SKey.str code.data)

/-- Lexicographic comparison of strings by code point (Python `str` ≤). -/
def lexLE : List Char → List Char → Bool
  | [], _ => true
  | _ :: _, [] => false
  | a :: as, b :: bs => if a = b then lexLE as bs else decide (a.toNat < b.toNat)

/-- Python tuple comparison on sort keys: `(0, _) < (1, _)`, numeric
keys by value, string keys lexicographically. -/
def skeyLE : SKey → SKey → Bool
  | .num q, .num q' => decide (q ≤ q')
  | .num _, .str _ => true
  | .str _, .num _ => false
  | .str s, .str s' => lexLE s s'

def pairLE (p p' : String × ℚ) : Bool :=
  skeyLE ((sort_key p.1).getD (SKey.str [])) ((sort_key p'.1).getD (SKey.str []))

/-- Stable insertion used to model Python's stable `sorted`: an element
is placed before the first already-placed element it compares `≤` to. -/
def insertSorted {α : Type} (le : α → α → Bool) (x : α) : List α → List α
  | [] => [x]
  | y :: ys => if le x y then x :: y :: ys else y :: insertSorted le x ys

/-- `sorted(counter.items(), key=sort_key)` (line 196): `none` when
computing some key raises (a code of digits/dots that `float`
rejects), otherwise the stable sort by `sort_key`. -/
def sortedOverview (t : Tally) : Option (List (String × ℚ)) :=
  if t.all (fun p => (sort_key p.1).isSome) then
    some (t.foldr (insertSorted pairLE) [])
  else none

example : sortedOverview [("10", 1), ("2", 1), ("ABC", 1), ("1.5", 1)] =
    some [("1.5", 1), ("2", 1), ("10", 1), ("ABC", 1)] := by with_unfolding_all decide
example : sortedOverview [("1.2.3", 1)] = none := by with_unfolding_all decide
example : sortedOverview [(".", 1)] = none := by with_unfolding_all decide
example : sortedOverview [("1.", 1), ("0.5", 2)] = some [("0.5", 2), ("1.", 1)] := by
  with_unfolding_all decide

/-! ## Persistence: the serialized document

`save_to_gist` stores `json.dumps({n: dict(c) for n, c in all_lists.items()},
ensure_ascii=False, indent=2)` (lines 36–37); `load_from_gist` reads it
back with `{name: Counter(cnt) for name, cnt in json.loads(content).items()}`
(line 25), returning `{}` on any failure.  We model the document as its
character sequence: a real printer for the emitted JSON text and a real
recursive-descent reader for it.  JSON numbers are printed from exact
rationals; a rational without a finite decimal expansion has no JSON
literal, so printing is partial (`none`) — every value the program ever
stores is a finite decimal, so this partiality is never exercised by
the application. -/

def qmark : Char := Char.ofNat 34

def bslash : Char := Char.ofNat 92

def lbrace : Char := Char.ofNat 123

def rbrace : Char := Char.ofNat 125

def nlc : Char := Char.ofNat 10

/-- Lowercase hexadecimal digit. -/
def hexChar (n : ℕ) : Char := if n < 10 then Char.ofNat (48 + n) else Char.ofNat (87 + n)

/-- `json.dumps` string escaping (with `ensure_ascii=False`): quote and
backslash get a backslash escape, control characters a `\u00xx`
escape, everything else is emitted verbatim. -/
def escChar (c : Char) : List Char :=
  if c = qmark then [bslash, qmark]
  else if c = bslash then [bslash, bslash]
  else if c.toNat < 32 then [bslash, 'u', '0', '0', hexChar (c.toNat / 16), hexChar (c.toNat % 16)]
  else [c]

/-- A JSON string literal. -/
def printStr (s : List Char) : List Char :=
  qmark :: (s.map escChar).flatten ++ [qmark]

/-- Little-endian decimal digits of a natural number, with fuel (the
number itself bounds the digit count; `natDigitsRev` supplies `n + 1`
units, which always suffices). -/
def natDigitsRevFuel : ℕ → ℕ → List ℕ
  | 0, _ => []
  | fuel + 1, n => if n < 10 then [n] else n % 10 :: natDigitsRevFuel fuel (n / 10)

def natDigitsRev (n : ℕ) : List ℕ := natDigitsRevFuel (n + 1) n

def digitChar (d : ℕ) : Char := Char.ofNat (48 + d)

/-- Big-endian decimal digit characters of a natural number
(`charDigits 120 = ['1','2','0']`, `charDigits 0 = ['0']`). -/
def charDigits (n : ℕ) : List Char := (natDigitsRev n).reverse.map digitChar

/-- Fraction digits, left-padded with zeros to exactly `e` places. -/
def padFrac (e n : ℕ) : List Char :=
  List.replicate (e - (natDigitsRev n).length) (digitChar 0) ++ charDigits n

/-- The least exponent `e ≤ den` with `den ∣ 10^e`, when one exists —
i.e. the number of decimal places needed for an exact literal. -/
def decExp (den : ℕ) : Option ℕ :=
  (List.range (den + 1)).find? (fun e => 10 ^ e % den = 0)

/-- The JSON literal of a rational with a finite decimal expansion:
optional sign, integer digits, and `e` fraction digits when `e ≠ 0`. -/
def printQ (q : ℚ) : Option (List Char) :=
  (decExp q.den).map (fun e =>
    (if q.num < 0 then ['-'] else []) ++
    (if e = 0 then charDigits (q.num.natAbs * (10 ^ e / q.den))
     else charDigits (q.num.natAbs * (10 ^ e / q.den) / 10 ^ e) ++
          '.' :: padFrac e (q.num.natAbs * (10 ^ e / q.den) % 10 ^ e)))

/-- One `"code": qty` line of an inner object. -/
def printInnerEntry (p : String × ℚ) : Option (List Char) :=
  (printQ p.2).map (fun qc => printStr p.1.data ++ ':' :: ' ' :: qc)

/-- After the first inner entry: `",\n    entry"*` then `"\n  }"`. -/
def printInnerTail : Tally → Option (List Char)
  | [] => some (nlc :: ' ' :: ' ' :: [rbrace])
  | p :: rest =>
    match printInnerEntry p, printInnerTail rest with
    | some c, some tl => some (',' :: nlc :: ' ' :: ' ' :: ' ' :: ' ' :: (c ++ tl))
    | _, _ => none

/-- An inner object at `indent=2` nesting depth 1: `{}` when empty,
otherwise `{\n    entry(,\n    entry)*\n  }`. -/
def printInner : Tally → Option (List Char)
  | [] => some [lbrace, rbrace]
  | p :: rest =>
    match printInnerEntry p, printInnerTail rest with
    | some c, some tl => some (lbrace :: nlc :: ' ' :: ' ' :: ' ' :: ' ' :: (c ++ tl))
    | _, _ => none

/-- One `"name": {…}` line of the outer object. -/
def printOuterEntry (p : String × Tally) : Option (List Char) :=
  (printInner p.2).map (fun ic => printStr p.1.data ++ ':' :: ' ' :: ic)

def printOuterTail : Collection → Option (List Char)
  | [] => some (nlc :: [rbrace])
  | p :: rest =>
    match printOuterEntry p, printOuterTail rest with
    | some c, some tl => some (',' :: nlc :: ' ' :: ' ' :: (c ++ tl))
    | _, _ => none

/-- The document `json.dumps({n: dict(c) …}, ensure_ascii=False, indent=2)`
produces for a collection (src/stocktakewx.app.py lines 36–37). -/
def dumpsCollection : Collection → Option (List Char)
  | [] => some [lbrace, rbrace]
  | p :: rest =>
    match printOuterEntry p, printOuterTail rest with
    | some c, some tl => some (lbrace :: nlc :: ' ' :: ' ' :: (c ++ tl))
    | _, _ => none

/-! ### Reading the document back (`json.loads` on this grammar) -/

def jsonWs (c : Char) : Bool :=
  c = ' ' || c = nlc || c = Char.ofNat 9 || c = Char.ofNat 13

def skipWs (l : List Char) : List Char := l.dropWhile jsonWs

/-- One hexadecimal digit (both cases). -/
def parseHex (c : Char) : Option ℕ :=
  if 48 ≤ c.toNat ∧ c.toNat ≤ 57 then some (c.toNat - 48)
  else if 97 ≤ c.toNat ∧ c.toNat ≤ 102 then some (c.toNat - 87)
  else if 65 ≤ c.toNat ∧ c.toNat ≤ 70 then some (c.toNat - 55)
  else none

/-- Body of a JSON string literal after the opening quote, returning
the unescaped characters and the input after the closing quote. -/
def parseStrBody : List Char → Option (List Char × List Char)
  | [] => none
  | c :: cs =>
    if c = qmark then some ([], cs)
    else if c = bslash then
      match cs with
      | [] => none
      | e :: cs' =>
        if e = qmark then (parseStrBody cs').map (fun p => (qmark :: p.1, p.2))
        else if e = bslash then (parseStrBody cs').map (fun p => (bslash :: p.1, p.2))
        else if e = 'u' then
          match cs' with
          | h1 :: h2 :: h3 :: h4 :: cs2 =>
            match parseHex h1, parseHex h2, parseHex h3, parseHex h4 with
            | some a, some b, some c2, some d2 =>
              (parseStrBody cs2).map
                (fun p => (Char.ofNat (((a * 16 + b) * 16 + c2) * 16 + d2) :: p.1, p.2))
            | _, _, _, _ => none
          | _ => none
        else none
    else (parseStrBody cs).map (fun p => (c :: p.1, p.2))

def parseStr (l : List Char) : Option (List Char × List Char) :=
  match l with
  | c :: cs => if c = qmark then parseStrBody cs else none
  | [] => none

/-- `"code": number`, starting at the opening quote, number parsed by
the same decimal grammar as the entry regex. -/
def parseInnerEntry (l : List Char) : Option ((String × ℚ) × List Char) :=
  match parseStr l with
  | none => none
  | some (name, r1) =>
    match skipWs r1 with
    | c :: r2 =>
      if c = ':' then
        match matchNum (skipWs r2) with
        | some (q, r3) => some ((String.mk name, q), r3)
        | none => none
      else none
    | [] => none

/-- Comma-separated inner entries up to the closing brace (the fuel is
one unit per entry; callers pass the input length, which suffices
because every entry consumes characters). -/
def parseInnerEntries : ℕ → List Char → Option (Tally × List Char)
  | 0, _ => none
  | fuel + 1, l =>
    match parseInnerEntry l with
    | none => none
    | some (p, r) =>
      match skipWs r with
      | c :: r' =>
        if c = ',' then
          match parseInnerEntries fuel (skipWs r') with
          | some (ps, r2) => some (p :: ps, r2)
          | none => none
        else if c = rbrace then some ([p], r')
        else none
      | [] => none

def parseInnerObj (l : List Char) : Option (Tally × List Char) :=
  match skipWs l with
  | c :: r =>
    if c = lbrace then
      match skipWs r with
      | d :: r2 => if d = rbrace then some ([], r2)
                   else parseInnerEntries ((skipWs r).length + 1) (skipWs r)
      | [] => none
    else none
  | [] => none

/-- `"name": {…}`, starting at the opening quote. -/
def parseOuterEntry (l : List Char) : Option ((String × Tally) × List Char) :=
  match parseStr l with
  | none => none
  | some (name, r1) =>
    match skipWs r1 with
    | c :: r2 =>
      if c = ':' then
        match parseInnerObj r2 with
        | some (t, r3) => some ((String.mk name, t), r3)
        | none => none
      else none
    | [] => none

def parseOuterEntries : ℕ → List Char → Option (Collection × List Char)
  | 0, _ => none
  | fuel + 1, l =>
    match parseOuterEntry l with
    | none => none
    | some (p, r) =>
      match skipWs r with
      | c :: r' =>
        if c = ',' then
          match parseOuterEntries fuel (skipWs r') with
          | some (ps, r2) => some (p :: ps, r2)
          | none => none
        else if c = rbrace then some ([p], r')
        else none
      | [] => none

def parseDoc (l : List Char) : Option (Collection × List Char) :=
  match skipWs l with
  | c :: r =>
    if c = lbrace then
      match skipWs r with
      | d :: r2 => if d = rbrace then some ([], r2)
                   else parseOuterEntries ((skipWs r).length + 1) (skipWs r)
      | [] => none
    else none
  | [] => none

/-- `json.loads(content)` followed by `{name: Counter(cnt) …}`
(src/stocktakewx.app.py lines 23–25): the collection read back from the
document, `{}` on any parse failure (the `except` branch). -/
def loadsCollection (l : List Char) : Collection :=
  match parseDoc l with
  | some (C, r) => if (skipWs r).isEmpty then C else []
  | none => []

example : dumpsCollection [] = some [lbrace, rbrace] := by with_unfolding_all decide

/-! ## Persistence: the gist store control flow (`save_to_gist`, lines 29–61)

The GitHub gist API is an external collaborator; its observable
interaction with `save_to_gist` is modelled as an environment: the
configured gist id (`st.secrets`, with `""` falsy, hence `Option`),
whether the update call (`gh.get_gist` + `gist.edit`) succeeds, and the
id the API mints for a freshly created gist.  `create_gist` itself has
no failure handling in the source, so the model treats it as returning
the minted id. -/

structure GistEnv where
  gist_id : Option String
  update_ok : Bool
  new_id : String

/-- What a call to `save_to_gist` did: the returned id, whether the
fallback `create_gist` path ran, whether any error message was shown,
and the document written to the store. -/
structure SaveOutcome where
  returned_id : String
  created_new : Bool
  error_reported : Bool
  stored : List Char
deriving DecidableEq, Repr

/-- `save_to_gist` (lines 29–61) given the serialized document `data`:
with a configured id, try the update and return that id; on update
failure fall through (`except: pass`) to creating a new private gist
with the same content, reporting no error (the bootstrap message is
`st.success`). -/
def save_to_gist (env : GistEnv) (data : List Char) : SaveOutcome :=
  match env.gist_id with
  | some gid =>
    if env.update_ok then { returned_id := gid, created_new := false,
                            error_reported := false, stored := data }
    else { returned_id := env.new_id, created_new := true,
           error_reported := false, stored := data }
  | none => { returned_id := env.new_id, created_new := true,
              error_reported := false, stored := data }

/-- The message `add_to_total` shows: a warning on a no-match abort
(line 147), otherwise `st.success("已累计并保存到 Gist")` after
`save_to_gist` returns (line 154) — unconditionally a success. -/
inductive Msg where
  | success
  | warning
deriving DecidableEq, Repr

def add_to_total_msg (s : AppState) (text : String) : Option Msg :=
  match s.current with
  | none => none
  | some name =>
    if hasKey s.all_lists name then
      if parse text = [] then some Msg.warning else some Msg.success
    else none
example : loadsCollection ((dumpsCollection [("A", [("x", 3)])]).getD []) =
    [("A", [("x", 3)])] := by with_unfolding_all decide
example : loadsCollection ((dumpsCollection [("A", [("x", 3), ("y", (-5 : ℚ)/2)]), ("B", [])]).getD []) =
    [("A", [("x", 3), ("y", (-5 : ℚ)/2)]), ("B", [])] := by with_unfolding_all decide
example : loadsCollection ((dumpsCollection [(String.mk [qmark, bslash, Char.ofNat 1], [])]).getD []) =
    [(String.mk [qmark, bslash, Char.ofNat 1], [])] := by with_unfolding_all decide

/-! ## Dictionary lemmas -/

theorem tallyGet_of_hasKey_false {t : Tally} {c : String} (h : hasKey t c = false) :
    tallyGet t c = 0 := by
  induction t with
  | nil => rfl
  | cons p rest ih =>
    obtain ⟨k, v⟩ := p
    unfold hasKey at h
    unfold tallyGet
    split_ifs at h ⊢ with hk
    exact ih h

theorem tallyGet_bump_self {t : Tally} {c : String} {q : ℚ} (h : hasKey t c = true) :
    tallyGet (bump t c q) c = tallyGet t c + q := by
  induction t with
  | nil => simp [hasKey] at h
  | cons p rest ih =>
    obtain ⟨k, v⟩ := p
    unfold hasKey at h
    unfold bump
    split_ifs at h ⊢ with hk
    · simp [tallyGet, hk]
    · simp [tallyGet, hk]
      exact ih h

theorem tallyGet_bump_ne {t : Tally} {c c' : String} {q : ℚ} (h : c ≠ c') :
    tallyGet (bump t c q) c' = tallyGet t c' := by
  induction t with
  | nil => rfl
  | cons p rest ih =>
    obtain ⟨k, v⟩ := p
    unfold bump
    split_ifs with hk
    · subst hk
      simp [tallyGet, h]
    · simp only [tallyGet]
      split_ifs with hk'
      · rfl
      · exact ih

theorem tallyGet_append_single_self {t : Tally} {c : String} {q : ℚ}
    (h : hasKey t c = false) : tallyGet (t ++ [(c, q)]) c = q := by
  induction t with
  | nil => simp [tallyGet]
  | cons p rest ih =>
    obtain ⟨k, v⟩ := p
    unfold hasKey at h
    split_ifs at h with hk
    simpa [tallyGet, hk] using ih h

theorem tallyGet_append_single_ne {t : Tally} {c c' : String} {q : ℚ} (h : c ≠ c') :
    tallyGet (t ++ [(c, q)]) c' = tallyGet t c' := by
  induction t with
  | nil => simp [tallyGet, h]
  | cons p rest ih =>
    obtain ⟨k, v⟩ := p
    simp only [List.cons_append, tallyGet]
    split_ifs with hk
    · rfl
    · exact ih

theorem tallyGet_tallyAdd (t : Tally) (c : String) (q : ℚ) (c' : String) :
    tallyGet (tallyAdd t c q) c' = tallyGet t c' + (if c = c' then q else 0) := by
  unfold tallyAdd
  by_cases hc : c = c'
  · subst hc
    rw [if_pos rfl]
    cases hk : hasKey t c
    · rw [if_neg (by simp [hk])]
      rw [tallyGet_append_single_self hk, tallyGet_of_hasKey_false hk, zero_add]
    · rw [if_pos (by simp [hk])]
      exact tallyGet_bump_self hk
  · rw [if_neg hc, add_zero]
    cases hk : hasKey t c
    · rw [if_neg (by simp [hk])]
      exact tallyGet_append_single_ne hc
    · rw [if_pos (by simp [hk])]
      exact tallyGet_bump_ne hc

theorem addEntries_cons (t : Tally) (p : String × ℚ) (ps : List (String × ℚ)) :
    addEntries t (p :: ps) = addEntries (tallyAdd t p.1 p.2) ps := rfl

theorem sumFor_cons (c : String) (p : String × ℚ) (ps : List (String × ℚ)) :
    sumFor c (p :: ps) = (if p.1 = c then p.2 else 0) + sumFor c ps := by
  by_cases h : p.1 = c
  · simp [sumFor, List.filter_cons, h]
  · simp [sumFor, List.filter_cons, h]

theorem tallyGet_addEntries (t : Tally) (ps : List (String × ℚ)) (c : String) :
    tallyGet (addEntries t ps) c = tallyGet t c + sumFor c ps := by
  induction ps generalizing t with
  | nil => simp [addEntries, sumFor]
  | cons p ps ih =>
    rw [addEntries_cons, ih, tallyGet_tallyAdd, sumFor_cons]
    ring

theorem sumFor_perm {ps ps' : List (String × ℚ)} (h : ps.Perm ps') (c : String) :
    sumFor c ps = sumFor c ps' :=
  List.Perm.sum_eq (List.Perm.map Prod.snd (List.Perm.filter _ h))

/-- C2: `addEntries` maps every code to its prior value (0 when absent)
plus the sum of the quantities given for it; codes not mentioned keep
their value (their `sumFor` is 0); the resulting mapping is invariant
under permutation of the pairs; and sums accumulate across repeated
calls. -/
theorem C2_accumulation (t : Tally) (ps ps' : List (String × ℚ)) (c : String) :
    tallyGet (addEntries t ps) c = tallyGet t c + sumFor c ps ∧
    (ps.Perm ps' → tallyGet (addEntries t ps) c = tallyGet (addEntries t ps') c) ∧
    tallyGet (addEntries (addEntries t ps) ps') c = tallyGet t c + sumFor c ps + sumFor c ps' := by
  refine ⟨tallyGet_addEntries t ps c, ?_, ?_⟩
  · intro hperm
    rw [tallyGet_addEntries, tallyGet_addEntries, sumFor_perm hperm]
  · rw [tallyGet_addEntries, tallyGet_addEntries]

/-- Witness for C2 at the spec's own example
`[(c1,3),(c2,-1),(c1,2)]`: the tally ends with `c1 = 5`, `c2 = -1`,
an untouched code keeps its value, and a permutation gives the same
mapping. -/
theorem C2_accumulation_witness :
    tallyGet (addEntries [("z", 7)] [("c1", 3), ("c2", -1), ("c1", 2)]) "c1" = 5 ∧
    tallyGet (addEntries [("z", 7)] [("c1", 3), ("c2", -1), ("c1", 2)]) "c2" = -1 ∧
    tallyGet (addEntries [("z", 7)] [("c1", 3), ("c2", -1), ("c1", 2)]) "z" = 7 ∧
    tallyGet (addEntries [("z", 7)] [("c1", 3), ("c2", -1), ("c1", 2)]) "c1" =
      tallyGet (addEntries [("z", 7)] [("c1", 2), ("c1", 3), ("c2", -1)]) "c1" := by
  refine ⟨?_, ?_, ?_, ?_⟩
  · rw [(C2_accumulation [("z", 7)] [("c1", 3), ("c2", -1), ("c1", 2)] [] "c1").1]
    with_unfolding_all decide
  · rw [(C2_accumulation [("z", 7)] [("c1", 3), ("c2", -1), ("c1", 2)] [] "c2").1]
    with_unfolding_all decide
  · rw [(C2_accumulation [("z", 7)] [("c1", 3), ("c2", -1), ("c1", 2)] [] "z").1]
    with_unfolding_all decide
  · exact (C2_accumulation [("z", 7)] [("c1", 3), ("c2", -1), ("c1", 2)]
      [("c1", 2), ("c1", 3), ("c2", -1)] "c1").2.1 (by with_unfolding_all decide)

/-! ## State machine lemmas -/

/-- Concrete states used by witnesses and counterexamples. -/
def stA : AppState :=
  { all_lists := [("A", [("x", 1)])], current := some "A", history := [] }

def stA0 : AppState :=
  { all_lists := [("A", [])], current := some "A", history := [] }

def stB : AppState :=
  { all_lists := [("A", [])], current := some "B", history := [] }

def st0 : AppState :=
  { all_lists := [], current := none, history := [] }

theorem undo_push (al : Collection) (cur : Option String) (h : List Collection)
    (al' : Collection) :
    undo { all_lists := al', current := cur, history := h ++ [al] } =
      { all_lists := al, current := cur, history := h } := by
  unfold undo
  rw [if_neg (by simp)]
  simp [List.getLastD_concat, List.dropLast_concat]

theorem hasKey_append_self {α : Type} (l : List (String × α)) (n : String) (x : α) :
    hasKey (l ++ [(n, x)]) n = true := by
  induction l with
  | nil => simp [hasKey]
  | cons p rest ih =>
    obtain ⟨k, v⟩ := p
    simp only [List.cons_append, hasKey]
    split_ifs with hk
    · rfl
    · exact ih

theorem hasKey_updateKey (l : Collection) (k : String) (t : Tally) (m : String) :
    hasKey (updateKey l k t) m = hasKey l m := by
  induction l with
  | nil => rfl
  | cons p rest ih =>
    obtain ⟨k', v⟩ := p
    simp only [updateKey]
    split_ifs with h1
    · simp [hasKey]
    · simp [hasKey, ih]

theorem create_new_list_success (s : AppState) (rawName : String)
    (h1 : String.mk (pyStrip rawName.data) ≠ "")
    (h2 : hasKey s.all_lists (String.mk (pyStrip rawName.data)) = false) :
    create_new_list s rawName =
      { all_lists := s.all_lists ++ [(String.mk (pyStrip rawName.data), [])],
        current := some (String.mk (pyStrip rawName.data)),
        history := s.history ++ [s.all_lists] } := by
  unfold create_new_list
  rw [if_neg h1, if_neg (by simp [h2])]

theorem delete_current_list_success (s : AppState) (n : String)
    (hc : s.current = some n) (hne : n ≠ "") (hk : hasKey s.all_lists n = true) :
    delete_current_list s =
      { all_lists := removeKey s.all_lists n,
        current := none,
        history := s.history ++ [s.all_lists] } := by
  unfold delete_current_list
  simp only [hc]
  rw [if_neg hne, if_pos (by simp [hk])]

theorem add_to_total_success (s : AppState) (n : String) (text : String)
    (hc : s.current = some n) (hk : hasKey s.all_lists n = true)
    (hp : parse text ≠ []) :
    add_to_total s text =
      { all_lists := updateKey s.all_lists n
          (addEntries (lookupTally s.all_lists n) (parse text)),
        current := s.current,
        history := s.history ++ [s.all_lists] } := by
  unfold add_to_total
  simp only [hc]
  rw [if_pos (by simp [hk]), if_neg hp]

theorem clear_all_success (s : AppState) (n : String)
    (hc : s.current = some n) (hk : hasKey s.all_lists n = true) :
    clear_all s =
      { all_lists := updateKey s.all_lists n [],
        current := s.current,
        history := s.history ++ [s.all_lists] } := by
  unfold clear_all
  simp only [hc]
  rw [if_pos (by simp [hk])]

/-- C1: each successful mutation (create, delete, add, clear) pushes a
snapshot equal to the pre-mutation collection, the mutation leaves that
already-pushed snapshot intact (the top of the history still equals the
old collection after the new one is in place), and a subsequent `undo`
restores the live collection to exactly the pre-mutation state. -/
theorem C1_undo_round_trip (s : AppState) (rawName text : String) :
    ((String.mk (pyStrip rawName.data) ≠ "" →
      hasKey s.all_lists (String.mk (pyStrip rawName.data)) = false →
      (undo (create_new_list s rawName)).all_lists = s.all_lists ∧
      (create_new_list s rawName).history.getLastD [] = s.all_lists) ∧
     (∀ n, s.current = some n → n ≠ "" → hasKey s.all_lists n = true →
      (undo (delete_current_list s)).all_lists = s.all_lists ∧
      (delete_current_list s).history.getLastD [] = s.all_lists) ∧
     (∀ n, s.current = some n → hasKey s.all_lists n = true → parse text ≠ [] →
      (undo (add_to_total s text)).all_lists = s.all_lists ∧
      (add_to_total s text).history.getLastD [] = s.all_lists) ∧
     (∀ n, s.current = some n → hasKey s.all_lists n = true →
      (undo (clear_all s)).all_lists = s.all_lists ∧
      (clear_all s).history.getLastD [] = s.all_lists)) := by
  refine ⟨?_, ?_, ?_, ?_⟩
  · intro h1 h2
    rw [create_new_list_success s rawName h1 h2, undo_push]
    exact ⟨rfl, List.getLastD_concat _ _ _⟩
  · intro n hc hne hk
    rw [delete_current_list_success s n hc hne hk, undo_push]
    exact ⟨rfl, List.getLastD_concat _ _ _⟩
  · intro n hc hk hp
    rw [add_to_total_success s n text hc hk hp, undo_push]
    exact ⟨rfl, List.getLastD_concat _ _ _⟩
  · intro n hc hk
    rw [clear_all_success s n hc hk, undo_push]
    exact ⟨rfl, List.getLastD_concat _ _ _⟩

/-- Witness for C1 at a concrete state: create, delete, add and clear
each round-trip through `undo`. -/
theorem C1_undo_round_trip_witness :
    (undo (create_new_list stA "B")).all_lists = [("A", [("x", 1)])] ∧
    (undo (delete_current_list stA)).all_lists = [("A", [("x", 1)])] ∧
    (undo (add_to_total stA "y 2")).all_lists = [("A", [("x", 1)])] ∧
    (undo (clear_all stA)).all_lists = [("A", [("x", 1)])] := by
  have h := C1_undo_round_trip stA "B" "y 2"
  refine ⟨(h.1 ?_ ?_).1, (h.2.1 "A" ?_ ?_ ?_).1, (h.2.2.1 "A" ?_ ?_ ?_).1,
    (h.2.2.2 "A" ?_ ?_).1⟩ <;> with_unfolding_all decide

/-- C7: every validation failure (empty trimmed name, duplicate name,
no matching pairs, deleting with no/invalid selection, undo on empty
history) leaves the whole state — collection, selection and history —
unchanged. -/
theorem C7_validation_failures_unchanged (s : AppState) (rawName text : String) :
    (String.mk (pyStrip rawName.data) = "" → create_new_list s rawName = s) ∧
    (hasKey s.all_lists (String.mk (pyStrip rawName.data)) = true →
      create_new_list s rawName = s) ∧
    (parse text = [] → add_to_total s text = s) ∧
    (s.current = none → delete_current_list s = s) ∧
    (∀ n, s.current = some n → hasKey s.all_lists n = false →
      delete_current_list s = s) ∧
    (s.history = [] → undo s = s) := by
  refine ⟨?_, ?_, ?_, ?_, ?_, ?_⟩
  · intro h1
    unfold create_new_list
    rw [if_pos h1]
  · intro h2
    unfold create_new_list
    split_ifs <;> rfl
  · intro hp
    unfold add_to_total
    cases s.current with
    | none => rfl
    | some n => simp [hp]
  · intro hc
    unfold delete_current_list
    simp only [hc]
  · intro n hc hk
    unfold delete_current_list
    simp only [hc]
    split_ifs with h1 h2
    · rfl
    · simp [hk] at h2
    · rfl
  · intro hh
    unfold undo
    rw [if_pos hh]

/-- Witness for C7: each failing operation at a concrete state returns
it unchanged. -/
theorem C7_validation_failures_unchanged_witness :
    create_new_list stA0 "  " = stA0 ∧
    create_new_list stA0 " A " = stA0 ∧
    add_to_total stA0 "nothing" = stA0 ∧
    delete_current_list stB = stB ∧
    undo stA0 = stA0 := by
  refine ⟨(C7_validation_failures_unchanged stA0 "  " "").1 ?_,
    (C7_validation_failures_unchanged stA0 " A " "").2.1 ?_,
    (C7_validation_failures_unchanged stA0 "" "nothing").2.2.1 ?_,
    (C7_validation_failures_unchanged stB "" "").2.2.2.2.1 "B" ?_ ?_,
    (C7_validation_failures_unchanged stA0 "" "").2.2.2.2.2 ?_⟩ <;> with_unfolding_all decide

/-- C8 counterexample: an `add_to_total` attempt whose text contains no
matching pair does NOT push a history snapshot — the validation check
happens before `record_history` (lines 146–149), so the history stays
empty rather than gaining an entry. -/
theorem C8_counterexample :
    parse "x" = [] ∧ ¬ (0 < (add_to_total stA0 "x").history.length) := by
  with_unfolding_all decide

/-- C8 amended: `create_new_list` and `add_to_total` both push their
snapshot only after their validation passes (a no-match add pushes
nothing), while `clear_all` pushes unconditionally — it has no
validation check at all. -/
theorem C8_amended_push_discipline (s : AppState) (rawName text : String) :
    ((String.mk (pyStrip rawName.data) ≠ "" →
      hasKey s.all_lists (String.mk (pyStrip rawName.data)) = false →
      (create_new_list s rawName).history = s.history ++ [s.all_lists]) ∧
     (String.mk (pyStrip rawName.data) = "" →
      (create_new_list s rawName).history = s.history) ∧
     (∀ n, s.current = some n → hasKey s.all_lists n = true → parse text ≠ [] →
      (add_to_total s text).history = s.history ++ [s.all_lists]) ∧
     (parse text = [] → (add_to_total s text).history = s.history) ∧
     (∀ n, s.current = some n → hasKey s.all_lists n = true →
      (clear_all s).history = s.history ++ [s.all_lists])) := by
  refine ⟨?_, ?_, ?_, ?_, ?_⟩
  · intro h1 h2
    rw [create_new_list_success s rawName h1 h2]
  · intro h1
    rw [(C7_validation_failures_unchanged s rawName text).1 h1]
  · intro n hc hk hp
    rw [add_to_total_success s n text hc hk hp]
  · intro hp
    rw [(C7_validation_failures_unchanged s rawName text).2.2.1 hp]
  · intro n hc hk
    rw [clear_all_success s n hc hk]

/-- Witness for the amended C8 at concrete states. -/
theorem C8_amended_push_discipline_witness :
    (create_new_list st0 "A").history = [[]] ∧
    (add_to_total stA0 "x 1").history = [[("A", [])]] ∧
    (add_to_total stA0 "x").history = [] ∧
    (clear_all stA0).history = [[("A", [])]] := by
  have h1 := C8_amended_push_discipline st0 "A" ""
  have h2 := C8_amended_push_discipline stA0 "" "x 1"
  have h3 := C8_amended_push_discipline stA0 "" "x"
  refine ⟨h1.1 ?_ ?_, h2.2.2.1 "A" ?_ ?_ ?_, h3.2.2.2.1 ?_, h2.2.2.2.2 "A" ?_ ?_⟩ <;>
    with_unfolding_all decide

/-- Any action other than `undo` preserves the selection invariant:
create selects the list it just inserted, delete clears the selection,
add and clear keep both the selection and the key set. -/
theorem selOk_step (s : AppState) (a : Action) (hs : selOk s = true)
    (ha : a ≠ Action.undo) : selOk (step s a) = true := by
  cases a with
  | create rawName =>
    show selOk (create_new_list s rawName) = true
    unfold create_new_list
    split_ifs with h1 h2
    · exact hs
    · exact hs
    · simp [selOk, hasKey_append_self]
  | delete =>
    show selOk (delete_current_list s) = true
    unfold delete_current_list
    cases hc : s.current with
    | none => simp only [hc]; exact hs
    | some n =>
      simp only [hc]
      split_ifs with h1 h2
      · exact hs
      · simp [selOk]
      · exact hs
  | add text =>
    show selOk (add_to_total s text) = true
    unfold add_to_total
    cases hc : s.current with
    | none => simp only [hc]; exact hs
    | some n =>
      simp only [hc]
      split_ifs with h1 h2
      · exact hs
      · simp only [selOk, hc, hasKey_updateKey]
        exact h1
      · exact hs
  | clear =>
    show selOk (clear_all s) = true
    unfold clear_all
    cases hc : s.current with
    | none => simp only [hc]; exact hs
    | some n =>
      simp only [hc]
      split_ifs with h1
      · simp only [selOk, hc, hasKey_updateKey]
        exact h1
      · exact hs
  | undo => exact absurd rfl ha

theorem run_selOk : ∀ (acts : List Action) (s : AppState),
    (∀ a ∈ acts, a ≠ Action.undo) → selOk s = true → selOk (run s acts) = true := by
  intro acts
  induction acts with
  | nil => intro s _ hs; exact hs
  | cons a as ih =>
    intro s hno hs
    exact ih (step s a) (fun b hb => hno b (List.mem_cons_of_mem _ hb))
      (selOk_step s a hs (hno a (List.mem_cons_self _ _)))

/-- C3 counterexample: from the empty initial state, create "A" (which
selects it) and then undo.  `undo` restores the collection but leaves
`current_list` untouched (lines 162–168), so the selection names "A"
while the collection is empty again — a reachable state violating the
SelectionState invariant. -/
theorem C3_counterexample :
    (run (initState []) [Action.create "A", Action.undo]).current = some "A" ∧
    hasKey (run (initState []) [Action.create "A", Action.undo]).all_lists "A" = false ∧
    selOk (run (initState []) [Action.create "A", Action.undo]) = false := by
  with_unfolding_all decide

/-- C3 amended: the invariant — the selection is the sentinel or names
a present list — holds in every state reached from a session start by
a sequence of actions that contains no `undo`; a single `undo` can
break it by restoring a collection that no longer contains the selected
name. -/
theorem C3_amended_selection_invariant (loaded : Collection) (acts : List Action)
    (hno : ∀ a ∈ acts, a ≠ Action.undo) :
    selOk (run (initState loaded) acts) = true :=
  run_selOk acts (initState loaded) hno rfl

/-- Witness for the amended C3. -/
theorem C3_amended_selection_invariant_witness :
    selOk (run (initState [("B", [("y", 2)])])
      [Action.create "A", Action.add "x 1", Action.clear, Action.delete]) = true := by
  refine C3_amended_selection_invariant [("B", [("y", 2)])]
    [Action.create "A", Action.add "x 1", Action.clear, Action.delete] ?_
  with_unfolding_all decide

/-! ## C9: save fallback control flow -/

/-- C9: when a gist id is configured but updating that gist fails,
`save_to_gist` silently falls back to creating a new private gist that
stores the full serialized collection, returns the newly minted id and
reports no error; the calling operation (`add_to_total` here) then
shows its unconditional success message. -/
theorem C9_silent_fallback (env : GistEnv) (g : String) (C : Collection)
    (data : List Char) (s : AppState) (n text : String)
    (hid : env.gist_id = some g) (hfail : env.update_ok = false)
    (_hd : dumpsCollection C = some data)
    (hc : s.current = some n) (hk : hasKey s.all_lists n = true)
    (hp : parse text ≠ []) :
    (save_to_gist env data).returned_id = env.new_id ∧
    (save_to_gist env data).created_new = true ∧
    (save_to_gist env data).error_reported = false ∧
    (save_to_gist env data).stored = data ∧
    add_to_total_msg s text = some Msg.success := by
  unfold save_to_gist
  simp only [hid, hfail]
  refine ⟨rfl, rfl, rfl, rfl, ?_⟩
  unfold add_to_total_msg
  simp only [hc]
  rw [if_pos (by simp [hk]), if_neg hp]

/-- Witness for C9. -/
theorem C9_silent_fallback_witness :
    (save_to_gist { gist_id := some "gid", update_ok := false, new_id := "fresh" }
      ((dumpsCollection [("A", [("x", 1)])]).getD [])).returned_id = "fresh" ∧
    (save_to_gist { gist_id := some "gid", update_ok := false, new_id := "fresh" }
      ((dumpsCollection [("A", [("x", 1)])]).getD [])).created_new = true ∧
    (save_to_gist { gist_id := some "gid", update_ok := false, new_id := "fresh" }
      ((dumpsCollection [("A", [("x", 1)])]).getD [])).error_reported = false ∧
    add_to_total_msg stA0 "x 1" = some Msg.success := by
  have h := C9_silent_fallback
    { gist_id := some "gid", update_ok := false, new_id := "fresh" } "gid"
    [("A", [("x", 1)])] ((dumpsCollection [("A", [("x", 1)])]).getD [])
    stA0 "A" "x 1" rfl rfl ?_ ?_ ?_ ?_
  · exact ⟨h.1, h.2.1, h.2.2.1, h.2.2.2.2⟩
  · with_unfolding_all decide
  · with_unfolding_all decide
  · with_unfolding_all decide
  · with_unfolding_all decide

/-! ## C4: the overview sort -/

/-- C4: on the spec's example the sort produces the claimed order
(numeric codes first, by value, then the rest lexicographically) — but
`sortedOverview` does not succeed on every tally: the code `"1.2.3"`
matches `[\d\.]+`, so `sort_key` feeds it to `float`, which raises
`ValueError` (modelled as `none`) instead of placing it in the
lexicographic partition. -/
theorem C4_sort_order_and_crash :
    sortedOverview [("10", 1), ("2", 1), ("ABC", 1), ("1.5", 1)] =
      some [("1.5", 1), ("2", 1), ("10", 1), ("ABC", 1)] ∧
    sortedOverview [("1.2.3", 1)] = none := by
  with_unfolding_all decide

/-! ## C5 and C10: parser extraction -/

theorem takeWhile_eq_self_of_all {p : Char → Bool} {l : List Char}
    (h : ∀ c ∈ l, p c = true) : l.takeWhile p = l := by
  induction l with
  | nil => rfl
  | cons c cs ih =>
    rw [List.takeWhile_cons, if_pos (h c (List.mem_cons_self _ _)),
      ih (fun d hd => h d (List.mem_cons_of_mem _ hd))]

theorem dropWhile_eq_nil_of_all {p : Char → Bool} {l : List Char}
    (h : ∀ c ∈ l, p c = true) : l.dropWhile p = [] := by
  induction l with
  | nil => rfl
  | cons c cs ih =>
    rw [List.dropWhile_cons_of_pos (h c (List.mem_cons_self _ _)),
      ih (fun d hd => h d (List.mem_cons_of_mem _ hd))]

theorem takeWhile_nil_of_head {p : Char → Bool} {l : List Char}
    (h : ∀ c ∈ l, p c = false) : l.takeWhile p = [] := by
  cases l with
  | nil => rfl
  | cons c cs => rw [List.takeWhile_cons, if_neg (by simp [h c (List.mem_cons_self _ _)])]

theorem matchNumCore_none_of_no_digit {l1 : List Char} (sgn : Bool)
    (h : ∀ c ∈ l1, pyIsDigit c = false) : matchNumCore l1 sgn = none := by
  unfold matchNumCore
  rw [if_pos (by rw [takeWhile_nil_of_head h]; rfl)]

theorem matchNum_none_of_no_digit {l : List Char}
    (h : ∀ c ∈ l, pyIsDigit c = false) : matchNum l = none := by
  unfold matchNum
  split_ifs with h1
  · exact matchNumCore_none_of_no_digit true
      (fun c hc => h c ((List.tail_sublist l).subset hc))
  · exact matchNumCore_none_of_no_digit false h

theorem trySplitFrom_none_of_no_digit (n : ℕ) (tok rest1 : List Char)
    (htok : ∀ c ∈ tok, pyIsDigit c = false)
    (hrest : ∀ c ∈ rest1, pyIsDigit c = false) :
    trySplitFrom n tok rest1 = none := by
  induction n with
  | zero => rfl
  | succ m ih =>
    have harg : ∀ c ∈ (if m + 1 = tok.length then rest1.dropWhile pyIsSpace
        else tok.drop (m + 1) ++ rest1), pyIsDigit c = false := by
      intro c hc
      by_cases hcase : m + 1 = tok.length
      · rw [if_pos hcase] at hc
        exact hrest c ((List.dropWhile_sublist _).subset hc)
      · rw [if_neg hcase] at hc
        rcases List.mem_append.1 hc with hm | hm
        · exact htok c ((List.drop_sublist _ _).subset hm)
        · exact hrest c hm
    unfold trySplitFrom
    rw [matchNum_none_of_no_digit harg]
    exact ih

theorem findallFuel_empty_of_no_digit : ∀ (fuel : ℕ) (l : List Char),
    (∀ c ∈ l, pyIsDigit c = false) → findallFuel fuel l = [] := by
  intro fuel
  induction fuel with
  | zero => intro l _; cases l <;> rfl
  | succ m ih =>
    intro l h
    cases l with
    | nil => rfl
    | cons c cs =>
      show findallFuel (m + 1) (c :: cs) = []
      unfold findallFuel
      split_ifs with hws
      · exact ih cs (fun d hd => h d (List.mem_cons_of_mem _ hd))
      · rw [trySplitFrom_none_of_no_digit _ _ _
          (fun d hd => h d ((List.takeWhile_sublist _).subset hd))
          (fun d hd => h d ((List.dropWhile_sublist _).subset hd))]
        exact ih cs (fun d hd => h d (List.mem_cons_of_mem _ hd))

/-- C5: the parser extraction on the spec's example, and the no-match
behaviour — an input without a single decimal digit can match no pair,
and `parse` returns the empty sequence.  (`parse` is a plain function
of the input text, so purity is inherent in the model.) -/
theorem C5_parse_extraction :
    parse "ABC-1 3 XYZ -2.5" = [("ABC-1", (3 : ℚ)), ("XYZ", (-5 : ℚ) / 2)] ∧
    (∀ l : List Char, (∀ c ∈ l, pyIsDigit c = false) → findall l = []) := by
  constructor
  · with_unfolding_all decide
  · intro l h
    exact findallFuel_empty_of_no_digit l.length l h

/-- Witness for C5. -/
theorem C5_parse_extraction_witness :
    parse "ABC-1 3 XYZ -2.5" = [("ABC-1", (3 : ℚ)), ("XYZ", (-5 : ℚ) / 2)] ∧
    findall ['a', 'b', '-'] = [] :=
  ⟨C5_parse_extraction.1, C5_parse_extraction.2 ['a', 'b', '-'] (by decide)⟩

theorem pyIsDigit_toNat {c : Char} (h : pyIsDigit c = true) :
    48 ≤ c.toNat ∧ c.toNat ≤ 57 := by
  simpa [pyIsDigit, Bool.and_eq_true, decide_eq_true_eq] using h

theorem space_toNat {c : Char} (h : pyIsSpace c = true) : c.toNat < 48 := by
  simp only [pyIsSpace, Bool.or_eq_true, decide_eq_true_eq] at h
  rcases h with ((((h | h) | h) | h) | h) | h <;> subst h <;> decide

theorem digit_not_space {c : Char} (h : pyIsDigit c = true) : pyIsSpace c = false := by
  cases hs : pyIsSpace c
  · rfl
  · have h1 := space_toNat hs
    have h2 := (pyIsDigit_toNat h).1
    omega

theorem numVal_int (sgn : Bool) (ds : List Char) :
    numVal sgn ds [] = (if sgn then -1 else 1) * (digitsValN ds : ℚ) := by
  simp [numVal, digitsValN]

theorem digitsValN_singleton (d : Char) : digitsValN [d] = digitVal d := by
  simp [digitsValN]

theorem matchNum_single_digit (d : Char) (hd : pyIsDigit d = true) :
    matchNum [d] = some ((digitVal d : ℚ), []) := by
  have hne : d ≠ '-' := by
    intro he
    subst he
    exact absurd hd (by decide)
  unfold matchNum
  rw [if_neg (by simp [hne])]
  unfold matchNumCore
  rw [show List.takeWhile pyIsDigit [d] = [d] from by
        rw [List.takeWhile_cons, if_pos hd]; rfl,
      show List.dropWhile pyIsDigit [d] = [] from by
        rw [List.dropWhile_cons_of_pos hd]; rfl]
  rw [if_neg (by simp), if_neg (by simp)]
  rw [numVal_int, digitsValN_singleton]
  simp

theorem trySplit_token_trailing (ys : List Char) (d : Char)
    (hne : ys ≠ []) (hd : pyIsDigit d = true) :
    trySplitFrom (ys ++ [d]).length (ys ++ [d]) [] =
      some (ys.length, (digitVal d : ℚ), []) := by
  obtain ⟨m, hm⟩ : ∃ m, ys.length = m + 1 := by
    cases ys with
    | nil => exact absurd rfl hne
    | cons y ys' => exact ⟨ys'.length, by simp⟩
  have hlen : (ys ++ [d]).length = m + 1 + 1 := by simp [hm]
  rw [hlen]
  unfold trySplitFrom
  rw [if_pos (by rw [hlen])]
  rw [show List.dropWhile pyIsSpace ([] : List Char) = [] from rfl,
    show matchNum [] = none from rfl]
  unfold trySplitFrom
  rw [if_neg (by rw [hlen]; omega)]
  rw [show (ys ++ [d]).drop (m + 1) ++ ([] : List Char) = [d] from by
    rw [List.append_nil, ← hm, List.drop_left]]
  rw [matchNum_single_digit d hd, hm]

/-- C10: `\S+` backtracks one character at a time, so for any
whitespace-free token of length at least two ending in a digit the
scan matches the token minus its last character as the code and just
that final digit as the quantity; a single digit alone cannot match
(the code group needs at least one character), so `parse` returns
nothing. -/
theorem C10_trailing_digit :
    (∀ (ys : List Char) (d : Char), ys ≠ [] →
      (∀ c ∈ ys ++ [d], pyIsSpace c = false) → pyIsDigit d = true →
      parse (String.mk (ys ++ [d])) = [(String.mk ys, (digitVal d : ℚ))]) ∧
    (∀ d : Char, pyIsDigit d = true → parse (String.mk [d]) = []) := by
  constructor
  · intro ys d hne hws hd
    show findall (ys ++ [d]) = _
    obtain ⟨y, ys', rfl⟩ : ∃ y ys', ys = y :: ys' := by
      cases ys with
      | nil => exact absurd rfl hne
      | cons y ys' => exact ⟨y, ys', rfl⟩
    show findallFuel ((y :: ys' ++ [d]).length) (y :: (ys' ++ [d])) = _
    have hlen : ((y :: ys') ++ [d]).length = (ys' ++ [d]).length + 1 := by simp
    rw [hlen]
    unfold findallFuel
    rw [if_neg (by simp [hws y (by simp)])]
    have htok : List.takeWhile (fun c => !pyIsSpace c) (y :: (ys' ++ [d])) =
        (y :: ys') ++ [d] := by
      rw [takeWhile_eq_self_of_all (fun c hc => by simp [hws c (by simpa using hc)])]
      simp
    have hdrop : List.dropWhile (fun c => !pyIsSpace c) (y :: (ys' ++ [d])) = [] := by
      rw [dropWhile_eq_nil_of_all (fun c hc => by simp [hws c (by simpa using hc)])]
    rw [htok, hdrop, trySplit_token_trailing (y :: ys') d (by simp) hd]
    show (String.mk (List.take (y :: ys').length (y :: (ys' ++ [d]))), (digitVal d : ℚ)) ::
        findallFuel (ys' ++ [d]).length [] =
      [(String.mk (y :: ys'), (digitVal d : ℚ))]
    rw [findallFuel_nil, List.length_cons, List.take_succ_cons, List.take_left]
  · intro d hd
    show findallFuel 1 [d] = []
    unfold findallFuel
    rw [if_neg (by simp [digit_not_space hd])]
    have htok : List.takeWhile (fun c => !pyIsSpace c) [d] = [d] := by
      rw [takeWhile_eq_self_of_all]
      intro c hc
      simp only [List.mem_singleton] at hc
      subst hc
      simp [digit_not_space hd]
    have hdrop : List.dropWhile (fun c => !pyIsSpace c) [d] = [] := by
      rw [dropWhile_eq_nil_of_all]
      intro c hc
      simp only [List.mem_singleton] at hc
      subst hc
      simp [digit_not_space hd]
    rw [htok, hdrop]
    rw [show ([d] : List Char).length = 0 + 1 from by simp]
    unfold trySplitFrom
    rw [if_pos (by simp)]
    rw [show List.dropWhile pyIsSpace ([] : List Char) = [] from rfl,
      show matchNum [] = none from rfl]
    rfl

/-- Witness for C10: `parse "item77" = [("item7", 7)]` and a single
digit parses to nothing. -/
theorem C10_trailing_digit_witness :
    parse (String.mk ['i', 't', 'e', 'm', '7', '7']) =
      [(String.mk ['i', 't', 'e', 'm', '7'], (7 : ℚ))] ∧
    parse (String.mk ['7']) = [] := by
  constructor
  · have h := C10_trailing_digit.1 ['i', 't', 'e', 'm', '7'] '7' (by decide)
      (by decide) (by decide)
    show parse (String.mk (['i', 't', 'e', 'm', '7'] ++ ['7'])) =
      [(String.mk ['i', 't', 'e', 'm', '7'], (7 : ℚ))]
    rw [h]
    with_unfolding_all decide
  · exact C10_trailing_digit.2 '7' (by decide)

/-! ## C6: the persistence round trip

The chain below proves `loadsCollection (dumpsCollection C) = C`: the
document printer and the reader invert each other, stage by stage —
digits, numbers, string literals, inner objects, the outer object. -/

theorem toNat_ofNat_small {n : ℕ} (h : n < 55296) : (Char.ofNat n).toNat = n := by
  unfold Char.ofNat
  rw [dif_pos (Or.inl h)]
  rfl

theorem digitChar_toNat {d : ℕ} (h : d < 10) : (digitChar d).toNat = 48 + d := by
  unfold digitChar
  exact toNat_ofNat_small (by omega)

theorem pyIsDigit_digitChar {d : ℕ} (h : d < 10) : pyIsDigit (digitChar d) = true := by
  simp only [pyIsDigit, digitChar_toNat h, Bool.and_eq_true, decide_eq_true_eq]
  omega

theorem digitVal_digitChar {d : ℕ} (h : d < 10) : digitVal (digitChar d) = d := by
  simp [digitVal, digitChar_toNat h]

theorem natDigitsRevFuel_lt : ∀ (f n : ℕ), ∀ d ∈ natDigitsRevFuel f n, d < 10 := by
  intro f
  induction f with
  | zero => intro n d hd; simp [natDigitsRevFuel] at hd
  | succ m ih =>
    intro n d hd
    unfold natDigitsRevFuel at hd
    split_ifs at hd with h10
    · simp only [List.mem_singleton] at hd
      omega
    · rcases List.mem_cons.1 hd with h | h
      · omega
      · exact ih _ d h

/-- Value of a little-endian digit list, read back big-endian. -/
def valN (l : List ℕ) : ℕ := l.foldl (fun a d => 10 * a + d) 0

theorem valN_natDigitsRevFuel : ∀ (f n : ℕ), n < f →
    valN (natDigitsRevFuel f n).reverse = n := by
  intro f
  induction f with
  | zero => intro n h; omega
  | succ m ih =>
    intro n h
    unfold natDigitsRevFuel
    split_ifs with h10
    · simp [valN]
    · rw [List.reverse_cons]
      unfold valN
      rw [List.foldl_append]
      have hih := ih (n / 10) (by omega)
      unfold valN at hih
      rw [hih]
      simp only [List.foldl_cons, List.foldl_nil]
      omega

theorem natDigitsRevFuel_length_le : ∀ (f n e : ℕ), n < 10 ^ e → 1 ≤ e →
    (natDigitsRevFuel f n).length ≤ e := by
  intro f
  induction f with
  | zero => intro n e _ he; simp [natDigitsRevFuel]
  | succ m ih =>
    intro n e hn he
    unfold natDigitsRevFuel
    split_ifs with h10
    · simpa using he
    · simp only [List.length_cons]
      have he2 : 2 ≤ e := by
        by_contra hlt
        have he1 : e = 1 := by omega
        subst he1
        simp only [pow_one] at hn
        omega
      have hdiv : n / 10 < 10 ^ (e - 1) := by
        rw [Nat.div_lt_iff_lt_mul (by omega)]
        have hpow : 10 ^ (e - 1) * 10 = 10 ^ e := by
          rw [← pow_succ]
          congr 1
          omega
        omega
      have := ih (n / 10) (e - 1) hdiv (by omega)
      omega

theorem charDigits_ne_nil (n : ℕ) : charDigits n ≠ [] := by
  unfold charDigits natDigitsRev
  unfold natDigitsRevFuel
  split_ifs <;> simp

theorem charDigits_all_digit (n : ℕ) : ∀ c ∈ charDigits n, pyIsDigit c = true := by
  intro c hc
  unfold charDigits at hc
  rw [List.mem_map] at hc
  obtain ⟨d, hd, rfl⟩ := hc
  rw [List.mem_reverse] at hd
  exact pyIsDigit_digitChar (natDigitsRevFuel_lt _ _ d hd)

theorem foldl_digits_aux (l : List ℕ) (h : ∀ d ∈ l, d < 10) : ∀ (a : ℕ),
    (l.map digitChar).foldl (fun a c => 10 * a + digitVal c) a =
    l.foldl (fun a d => 10 * a + d) a := by
  induction l with
  | nil => intro a; rfl
  | cons d l ih =>
    intro a
    simp only [List.map_cons, List.foldl_cons]
    rw [digitVal_digitChar (h d (List.mem_cons_self _ _))]
    exact ih (fun x hx => h x (List.mem_cons_of_mem _ hx)) _

theorem natDigitsRev_lt (n : ℕ) : ∀ d ∈ natDigitsRev n, d < 10 :=
  natDigitsRevFuel_lt (n + 1) n

theorem valN_natDigitsRev (n : ℕ) : valN (natDigitsRev n).reverse = n :=
  valN_natDigitsRevFuel (n + 1) n (by omega)

theorem digitsValN_charDigits (n : ℕ) : digitsValN (charDigits n) = n := by
  unfold charDigits digitsValN
  rw [foldl_digits_aux ((natDigitsRev n).reverse)
    (fun d hd => natDigitsRev_lt n d (List.mem_reverse.1 hd)) 0]
  exact valN_natDigitsRev n

theorem padFrac_all_digit (e n : ℕ) : ∀ c ∈ padFrac e n, pyIsDigit c = true := by
  intro c hc
  unfold padFrac at hc
  rcases List.mem_append.1 hc with h | h
  · rw [List.eq_of_mem_replicate h]
    exact pyIsDigit_digitChar (by omega)
  · exact charDigits_all_digit n c h

theorem charDigits_length (n : ℕ) : (charDigits n).length = (natDigitsRev n).length := by
  unfold charDigits
  rw [List.length_map, List.length_reverse]

theorem padFrac_length {e n : ℕ} (hn : n < 10 ^ e) (he : 1 ≤ e) :
    (padFrac e n).length = e := by
  unfold padFrac
  rw [List.length_append, List.length_replicate, charDigits_length]
  have := natDigitsRevFuel_length_le (n + 1) n e hn he
  unfold natDigitsRev
  omega

theorem padFrac_ne_nil (e n : ℕ) : padFrac e n ≠ [] := by
  unfold padFrac
  intro h
  rcases List.append_eq_nil.1 h with ⟨-, h2⟩
  exact charDigits_ne_nil n h2

theorem digitsValN_padFrac (e n : ℕ) : digitsValN (padFrac e n) = n := by
  unfold padFrac digitsValN
  rw [List.foldl_append]
  have hrep : ∀ k, List.foldl (fun a c => 10 * a + digitVal c) 0
      (List.replicate k (digitChar 0)) = 0 := by
    intro k
    induction k with
    | zero => rfl
    | succ m ih =>
      rw [List.replicate_succ, List.foldl_cons, digitVal_digitChar (by omega)]
      simpa using ih
  rw [hrep]
  exact digitsValN_charDigits n

theorem decExp_dvd {den e : ℕ} (h : decExp den = some e) : den ∣ 10 ^ e := by
  have hp := List.find?_some h
  simp only [decide_eq_true_eq] at hp
  exact Nat.dvd_of_mod_eq_zero hp

theorem takeWhile_append_all {p : Char → Bool} {ds rest : List Char}
    (hds : ∀ c ∈ ds, p c = true) (hr : ∀ c, rest.head? = some c → p c = false) :
    (ds ++ rest).takeWhile p = ds ∧ (ds ++ rest).dropWhile p = rest := by
  induction ds with
  | nil =>
    simp only [List.nil_append]
    cases rest with
    | nil => exact ⟨rfl, rfl⟩
    | cons c t =>
      have hc := hr c rfl
      exact ⟨by rw [List.takeWhile_cons, if_neg (by simp [hc])],
             List.dropWhile_cons_of_neg (by simp [hc])⟩
  | cons d ds ih =>
    have hd := hds d (List.mem_cons_self _ _)
    obtain ⟨h1, h2⟩ := ih (fun c hc => hds c (List.mem_cons_of_mem _ hc))
    constructor
    · rw [List.cons_append, List.takeWhile_cons, if_pos hd, h1]
    · rw [List.cons_append, List.dropWhile_cons_of_pos hd, h2]

theorem head_not_dot {rest : List Char}
    (hrest : ∀ c, rest.head? = some c → pyIsDigit c = false ∧ c ≠ '.') :
    ¬ rest.head? = some '.' := by
  intro h
  exact absurd rfl (hrest '.' h).2

theorem matchNumCore_int (sgn : Bool) (m : ℕ) (rest : List Char)
    (hrest : ∀ c, rest.head? = some c → pyIsDigit c = false ∧ c ≠ '.') :
    matchNumCore (charDigits m ++ rest) sgn =
      some ((if sgn then (-1 : ℚ) else 1) * (m : ℚ), rest) := by
  obtain ⟨htake, hdrop⟩ := takeWhile_append_all (charDigits_all_digit m)
    (fun c hc => (hrest c hc).1)
  unfold matchNumCore
  rw [htake, hdrop]
  rw [if_neg (by simp [charDigits_ne_nil m]), if_neg (head_not_dot hrest)]
  rw [numVal_int, digitsValN_charDigits]

theorem matchNumCore_frac (sgn : Bool) (a b e : ℕ) (rest : List Char)
    (hb : b < 10 ^ e) (he : 1 ≤ e)
    (hrest : ∀ c, rest.head? = some c → pyIsDigit c = false ∧ c ≠ '.') :
    matchNumCore (charDigits a ++ '.' :: (padFrac e b ++ rest)) sgn =
      some ((if sgn then (-1 : ℚ) else 1) * ((a : ℚ) + (b : ℚ) / 10 ^ e), rest) := by
  obtain ⟨htake, hdrop⟩ := takeWhile_append_all (charDigits_all_digit a)
    (fun c (hc : ('.' :: (padFrac e b ++ rest)).head? = some c) => by
      simp only [List.head?_cons, Option.some.injEq] at hc
      subst hc
      decide)
  obtain ⟨htake2, hdrop2⟩ := takeWhile_append_all (padFrac_all_digit e b)
    (fun c hc => (hrest c hc).1)
  unfold matchNumCore
  rw [htake, hdrop]
  rw [if_neg (by simp [charDigits_ne_nil a])]
  rw [if_pos (by rw [List.head?_cons])]
  simp only [List.tail_cons]
  rw [htake2, hdrop2]
  rw [if_neg (by simp [padFrac_ne_nil e b])]
  unfold numVal
  rw [digitsValN_charDigits, digitsValN_padFrac, padFrac_length hb he]

theorem cast_div_add_mod (m e : ℕ) :
    ((m / 10 ^ e : ℕ) : ℚ) + ((m % 10 ^ e : ℕ) : ℚ) / (10 : ℚ) ^ e =
      (m : ℚ) / (10 : ℚ) ^ e := by
  have hpow : ((10 : ℚ) ^ e) ≠ 0 := by positivity
  rw [eq_div_iff hpow, add_mul, div_mul_cancel₀ _ hpow]
  have hN : (m / 10 ^ e) * 10 ^ e + m % 10 ^ e = m := by
    rw [mul_comm]
    exact Nat.div_add_mod m (10 ^ e)
  exact_mod_cast hN

theorem m_scaled_div {q : ℚ} {e : ℕ} (hdvd : q.den ∣ 10 ^ e) :
    ((q.num.natAbs * (10 ^ e / q.den) : ℕ) : ℚ) / (10 : ℚ) ^ e =
      (q.num.natAbs : ℚ) / (q.den : ℚ) := by
  have hden : (q.den : ℚ) ≠ 0 := by
    exact_mod_cast q.den_nz
  have hpow : ((10 : ℚ) ^ e) ≠ 0 := by positivity
  rw [div_eq_div_iff hpow hden]
  have hN : q.num.natAbs * (10 ^ e / q.den) * q.den = q.num.natAbs * 10 ^ e := by
    rw [mul_assoc, Nat.div_mul_cancel hdvd]
  exact_mod_cast hN

theorem rat_sign_decomp (q : ℚ) :
    (if q.num < 0 then (-1 : ℚ) else 1) * ((q.num.natAbs : ℚ) / (q.den : ℚ)) = q := by
  rcases lt_or_le q.num 0 with h | h
  · rw [if_pos h]
    have h1 : (q.num.natAbs : ℤ) = -q.num := Int.ofNat_natAbs_of_nonpos (le_of_lt h)
    have habs : ((q.num.natAbs : ℚ)) = -((q.num : ℤ) : ℚ) := by
      calc ((q.num.natAbs : ℚ)) = (((q.num.natAbs : ℤ) : ℚ)) :=
            (Int.cast_natCast q.num.natAbs).symm
        _ = ((-q.num : ℤ) : ℚ) := by rw [h1]
        _ = -((q.num : ℤ) : ℚ) := by push_cast; ring
    rw [habs]
    have hring : (-1 : ℚ) * (-((q.num : ℤ) : ℚ) / (q.den : ℚ)) =
        ((q.num : ℤ) : ℚ) / (q.den : ℚ) := by ring
    rw [hring, Rat.num_div_den]
  · rw [if_neg (not_lt.2 h)]
    have h1 : (q.num.natAbs : ℤ) = q.num := Int.natAbs_of_nonneg h
    have habs : ((q.num.natAbs : ℚ)) = ((q.num : ℤ) : ℚ) := by
      calc ((q.num.natAbs : ℚ)) = (((q.num.natAbs : ℤ) : ℚ)) :=
            (Int.cast_natCast q.num.natAbs).symm
        _ = ((q.num : ℤ) : ℚ) := by rw [h1]
    rw [habs, one_mul, Rat.num_div_den]

theorem charDigits_head_digit (n : ℕ) (rest : List Char) :
    ∃ c, (charDigits n ++ rest).head? = some c ∧ pyIsDigit c = true := by
  cases hcd : charDigits n with
  | nil => exact absurd hcd (charDigits_ne_nil n)
  | cons c t =>
    refine ⟨c, by simp, ?_⟩
    exact charDigits_all_digit n c (by rw [hcd]; exact List.mem_cons_self _ _)

/-- The printed decimal literal of `q` reads back as exactly `q`,
leaving the rest of the input untouched, provided the next character
is no digit and no dot. -/
theorem matchNum_printQ {q : ℚ} {body : List Char} (rest : List Char)
    (hpr : printQ q = some body)
    (hrest : ∀ c, rest.head? = some c → pyIsDigit c = false ∧ c ≠ '.') :
    matchNum (body ++ rest) = some (q, rest) := by
  unfold printQ at hpr
  rcases he : decExp q.den with - | e
  · rw [he] at hpr
    exact absurd hpr (by simp)
  rw [he] at hpr
  simp only [Option.map, Option.some.injEq] at hpr
  have hdvd := decExp_dvd he
  have hval : (if q.num < 0 then (-1 : ℚ) else 1) *
      (((q.num.natAbs * (10 ^ e / q.den) : ℕ) : ℚ) / (10 : ℚ) ^ e) = q := by
    rw [m_scaled_div hdvd]
    exact rat_sign_decomp q
  subst hpr
  by_cases he0 : e = 0
  · subst he0
    rw [if_pos rfl]
    have hvalInt : (if q.num < 0 then (-1 : ℚ) else 1) *
        ((q.num.natAbs * (10 ^ 0 / q.den) : ℕ) : ℚ) = q := by
      have h0 : (((q.num.natAbs * (10 ^ 0 / q.den) : ℕ) : ℚ)) =
          ((q.num.natAbs * (10 ^ 0 / q.den) : ℕ) : ℚ) / (10 : ℚ) ^ (0 : ℕ) := by
        rw [show ((10 : ℚ) ^ (0 : ℕ)) = 1 from pow_zero 10, div_one]
      rw [h0]
      exact hval
    rcases lt_or_le q.num 0 with hneg | hpos
    · rw [if_pos hneg, List.append_assoc, List.singleton_append]
      unfold matchNum
      rw [if_pos (show (('-' :: (charDigits (q.num.natAbs * (10 ^ 0 / q.den)) ++
        rest)).head? = some '-') from rfl)]
      simp only [List.tail_cons]
      rw [matchNumCore_int true _ rest hrest]
      rw [if_pos hneg] at hvalInt
      rw [show (if true then (-1 : ℚ) else 1) = (-1 : ℚ) from rfl, hvalInt]
    · rw [if_neg (not_lt.2 hpos), List.nil_append]
      unfold matchNum
      obtain ⟨c, hc, hcd⟩ := charDigits_head_digit (q.num.natAbs * (10 ^ 0 / q.den)) rest
      rw [if_neg (by
        rw [hc]
        intro hcontra
        simp only [Option.some.injEq] at hcontra
        subst hcontra
        exact absurd hcd (by decide))]
      rw [matchNumCore_int false _ rest hrest]
      rw [if_neg (not_lt.2 hpos)] at hvalInt
      rw [show (if false then (-1 : ℚ) else 1) = (1 : ℚ) from rfl, hvalInt]
  · rw [if_neg he0]
    have he1 : 1 ≤ e := by omega
    have hmod : (q.num.natAbs * (10 ^ e / q.den)) % 10 ^ e < 10 ^ e :=
      Nat.mod_lt _ (by positivity)
    have hvalFrac : (if q.num < 0 then (-1 : ℚ) else 1) *
        (((q.num.natAbs * (10 ^ e / q.den) / 10 ^ e : ℕ) : ℚ) +
         ((q.num.natAbs * (10 ^ e / q.den) % 10 ^ e : ℕ) : ℚ) / (10 : ℚ) ^ e) = q := by
      rw [cast_div_add_mod]
      exact hval
    rcases lt_or_le q.num 0 with hneg | hpos
    · rw [if_pos hneg, List.append_assoc, List.singleton_append, List.append_assoc,
        List.cons_append]
      unfold matchNum
      rw [if_pos (show (('-' :: (charDigits (q.num.natAbs * (10 ^ e / q.den) / 10 ^ e) ++
        ('.' :: (padFrac e (q.num.natAbs * (10 ^ e / q.den) % 10 ^ e) ++
          rest)))).head? = some '-') from rfl)]
      simp only [List.tail_cons]
      rw [matchNumCore_frac true _ _ e rest hmod he1 hrest]
      rw [if_pos hneg] at hvalFrac
      rw [show (if true then (-1 : ℚ) else 1) = (-1 : ℚ) from rfl, hvalFrac]
    · rw [if_neg (not_lt.2 hpos), List.nil_append, List.append_assoc, List.cons_append]
      unfold matchNum
      obtain ⟨c, hc, hcd⟩ := charDigits_head_digit
        (q.num.natAbs * (10 ^ e / q.den) / 10 ^ e)
        ('.' :: (padFrac e (q.num.natAbs * (10 ^ e / q.den) % 10 ^ e) ++ rest))
      rw [if_neg (by
        rw [hc]
        intro hcontra
        simp only [Option.some.injEq] at hcontra
        subst hcontra
        exact absurd hcd (by decide))]
      rw [matchNumCore_frac false _ _ e rest hmod he1 hrest]
      rw [if_neg (not_lt.2 hpos)] at hvalFrac
      rw [show (if false then (-1 : ℚ) else 1) = (1 : ℚ) from rfl, hvalFrac]

theorem parseHex_hexChar {n : ℕ} (h : n < 16) : parseHex (hexChar n) = some n := by
  interval_cases n <;> decide

theorem qmark_ne_bslash : qmark ≠ bslash := by decide

/-- Single-step reductions of `parseStrBody`. -/
theorem psb_quote (cs : List Char) : parseStrBody (qmark :: cs) = some ([], cs) := by
  rw [parseStrBody.eq_def]
  simp only []
  rw [if_pos trivial]

theorem psb_esc_quote (cs : List Char) :
    parseStrBody (bslash :: qmark :: cs) =
      (parseStrBody cs).map (fun p => (qmark :: p.1, p.2)) := by
  rw [parseStrBody.eq_def]
  simp only []
  rw [if_neg (by decide), if_pos trivial, if_pos trivial]

theorem psb_esc_bslash (cs : List Char) :
    parseStrBody (bslash :: bslash :: cs) =
      (parseStrBody cs).map (fun p => (bslash :: p.1, p.2)) := by
  rw [parseStrBody.eq_def]
  simp only []
  rw [if_neg (by decide), if_pos trivial, if_neg (by decide), if_pos trivial]

theorem psb_esc_u (a b c d : Char) (x1 x2 x3 x4 : ℕ) (cs : List Char)
    (ha : parseHex a = some x1) (hb : parseHex b = some x2)
    (hc : parseHex c = some x3) (hd2 : parseHex d = some x4) :
    parseStrBody (bslash :: 'u' :: a :: b :: c :: d :: cs) =
      (parseStrBody cs).map
        (fun p => (Char.ofNat (((x1 * 16 + x2) * 16 + x3) * 16 + x4) :: p.1, p.2)) := by
  rw [parseStrBody.eq_def]
  simp only []
  rw [if_neg (by decide), if_pos trivial, if_neg (by decide), if_neg (by decide),
    if_pos trivial, ha, hb, hc, hd2]

theorem psb_plain (c : Char) (cs : List Char) (h1 : ¬ c = qmark) (h2 : ¬ c = bslash) :
    parseStrBody (c :: cs) = (parseStrBody cs).map (fun p => (c :: p.1, p.2)) := by
  rw [parseStrBody.eq_def]
  simp only []
  rw [if_neg h1, if_neg h2]

/-- Escaped string bodies read back unescaped, consuming the closing
quote. -/
theorem parseStrBody_print (s rest : List Char) :
    parseStrBody ((s.map escChar).flatten ++ (qmark :: rest)) = some (s, rest) := by
  induction s with
  | nil => exact psb_quote rest
  | cons c s ih =>
    rw [List.map_cons, List.flatten_cons, List.append_assoc]
    unfold escChar
    split_ifs with h1 h2 h3
    · subst h1
      show parseStrBody (bslash :: qmark ::
        ((s.map escChar).flatten ++ (qmark :: rest))) = _
      rw [psb_esc_quote, ih]
      rfl
    · subst h2
      show parseStrBody (bslash :: bslash ::
        ((s.map escChar).flatten ++ (qmark :: rest))) = _
      rw [psb_esc_bslash, ih]
      rfl
    · show parseStrBody (bslash :: 'u' :: '0' :: '0' ::
        hexChar (c.toNat / 16) :: hexChar (c.toNat % 16) ::
        ((s.map escChar).flatten ++ (qmark :: rest))) = _
      rw [psb_esc_u '0' '0' (hexChar (c.toNat / 16)) (hexChar (c.toNat % 16))
        0 0 (c.toNat / 16) (c.toNat % 16) _ (by decide) (by decide)
        (parseHex_hexChar (by omega : c.toNat / 16 < 16))
        (parseHex_hexChar (by omega : c.toNat % 16 < 16))]
      rw [ih]
      simp only [Option.map]
      rw [show ((0 * 16 + 0) * 16 + c.toNat / 16) * 16 + c.toNat % 16 = c.toNat from by
        omega]
      rw [Char.ofNat_toNat c]
    · show parseStrBody (c :: ((s.map escChar).flatten ++ (qmark :: rest))) = _
      rw [psb_plain c _ h1 h2, ih]
      rfl

theorem parseStr_print (s rest : List Char) :
    parseStr (printStr s ++ rest) = some (s, rest) := by
  unfold printStr
  simp only [List.cons_append, List.append_assoc, List.singleton_append, List.nil_append]
  unfold parseStr
  simp only []
  rw [if_pos trivial]
  exact parseStrBody_print s rest

theorem skipWs_cons_ws {c : Char} (l : List Char) (h : jsonWs c = true) :
    skipWs (c :: l) = skipWs l := by
  unfold skipWs
  rw [List.dropWhile_cons_of_pos h]

theorem skipWs_not_ws {l : List Char} (h : ∀ c, l.head? = some c → jsonWs c = false) :
    skipWs l = l := by
  unfold skipWs
  cases l with
  | nil => rfl
  | cons c cs => exact List.dropWhile_cons_of_neg (by simp [h c rfl])

theorem digit_not_jsonWs {c : Char} (h : pyIsDigit c = true) : jsonWs c = false := by
  cases hw : jsonWs c
  · rfl
  · exfalso
    have hge := (pyIsDigit_toNat h).1
    simp only [jsonWs, Bool.or_eq_true, decide_eq_true_eq] at hw
    rcases hw with ((h1 | h1) | h1) | h1 <;> subst h1 <;> exact absurd hge (by decide)

theorem printQ_head {q : ℚ} {qc : List Char} (h : printQ q = some qc) :
    ∃ c cs, qc = c :: cs ∧ jsonWs c = false ∧ c ≠ qmark ∧ c ≠ rbrace := by
  unfold printQ at h
  rcases he : decExp q.den with - | e
  · rw [he] at h
    exact absurd h (by simp)
  rw [he] at h
  simp only [Option.map, Option.some.injEq] at h
  subst h
  by_cases hneg : q.num < 0
  · rw [if_pos hneg]
    exact ⟨'-', _, by rw [List.cons_append], by decide, by decide, by decide⟩
  · rw [if_neg hneg, List.nil_append]
    split_ifs with he0
    · rcases hch : charDigits (q.num.natAbs * (10 ^ e / q.den)) with - | ⟨c0, cs0⟩
      · exact absurd hch (charDigits_ne_nil _)
      · refine ⟨c0, cs0, rfl, ?_, ?_, ?_⟩
        · exact digit_not_jsonWs (charDigits_all_digit _ c0 (by rw [hch]; exact List.mem_cons_self _ _))
        · have := charDigits_all_digit _ c0 (by rw [hch]; exact List.mem_cons_self _ _)
          intro hq2
          subst hq2
          exact absurd this (by decide)
        · have := charDigits_all_digit _ c0 (by rw [hch]; exact List.mem_cons_self _ _)
          intro hq2
          subst hq2
          exact absurd this (by decide)
    · rcases hch : charDigits (q.num.natAbs * (10 ^ e / q.den) / 10 ^ e) with - | ⟨c0, cs0⟩
      · exact absurd hch (charDigits_ne_nil _)
      · have hdig := charDigits_all_digit _ c0 (by rw [hch]; exact List.mem_cons_self _ _)
        refine ⟨c0, cs0 ++ '.' :: padFrac e (q.num.natAbs * (10 ^ e / q.den) % 10 ^ e),
          List.cons_append c0 cs0 _, digit_not_jsonWs hdig, ?_, ?_⟩
        · intro hq2
          subst hq2
          exact absurd hdig (by decide)
        · intro hq2
          subst hq2
          exact absurd hdig (by decide)

theorem printInnerEntry_shape {p : String × ℚ} {body : List Char}
    (h : printInnerEntry p = some body) :
    ∃ qc, printQ p.2 = some qc ∧ body = printStr p.1.data ++ ':' :: ' ' :: qc := by
  unfold printInnerEntry at h
  rcases hq : printQ p.2 with - | qc
  · rw [hq] at h
    exact absurd h (by simp)
  · rw [hq] at h
    simp only [Option.map, Option.some.injEq] at h
    exact ⟨qc, rfl, h.symm⟩

theorem printInnerEntry_head {p : String × ℚ} {body : List Char}
    (h : printInnerEntry p = some body) : ∃ cs, body = qmark :: cs := by
  obtain ⟨qc, -, rfl⟩ := printInnerEntry_shape h
  refine ⟨((p.1.data.map escChar).flatten ++ [qmark]) ++ ':' :: ' ' :: qc, ?_⟩
  unfold printStr
  exact List.cons_append qmark _ _

/-- One printed inner entry parses back, given that what follows starts
with a character that cannot extend the number (`,` or a newline). -/
theorem parseInnerEntry_print {p : String × ℚ} {body : List Char}
    (hb : printInnerEntry p = some body) (rest : List Char)
    (hrest : ∀ c, rest.head? = some c → pyIsDigit c = false ∧ c ≠ '.') :
    parseInnerEntry (body ++ rest) = some (p, rest) := by
  obtain ⟨qc, hq, rfl⟩ := printInnerEntry_shape hb
  obtain ⟨c0, cs0, hqc, hc0ws, -, -⟩ := printQ_head hq
  unfold parseInnerEntry
  rw [List.append_assoc, List.cons_append, List.cons_append]
  rw [parseStr_print p.1.data (':' :: ' ' :: (qc ++ rest))]
  simp only []
  rw [skipWs_not_ws (fun c hc => by
    simp only [List.head?_cons, Option.some.injEq] at hc
    subst hc
    decide)]
  simp only []
  rw [if_pos trivial]
  rw [skipWs_cons_ws _ (by decide)]
  rw [skipWs_not_ws (fun c hc => by
    rw [hqc, List.cons_append, List.head?_cons] at hc
    simp only [Option.some.injEq] at hc
    subst hc
    exact hc0ws)]
  rw [matchNum_printQ rest hq hrest]

theorem printInnerTail_shape_cons {p2 : String × ℚ} {ts : Tally} {tl : List Char}
    (h : printInnerTail (p2 :: ts) = some tl) :
    ∃ body2 tl2, printInnerEntry p2 = some body2 ∧ printInnerTail ts = some tl2 ∧
      tl = ',' :: nlc :: ' ' :: ' ' :: ' ' :: ' ' :: (body2 ++ tl2) := by
  unfold printInnerTail at h
  rcases hb : printInnerEntry p2 with - | body2 <;> rw [hb] at h
  · exact absurd h (by simp)
  rcases htl : printInnerTail ts with - | tl2 <;> rw [htl] at h
  · exact absurd h (by simp)
  simp only [Option.some.injEq] at h
  exact ⟨body2, tl2, rfl, rfl, h.symm⟩

theorem printInnerTail_length {ts : Tally} {tl : List Char}
    (h : printInnerTail ts = some tl) : ts.length ≤ tl.length := by
  induction ts generalizing tl with
  | nil =>
    unfold printInnerTail at h
    simp only [Option.some.injEq] at h
    subst h
    simp
  | cons p2 ts ih =>
    obtain ⟨body2, tl2, -, htl2, rfl⟩ := printInnerTail_shape_cons h
    have := ih htl2
    simp only [List.length_cons, List.length_append]
    omega

/-- The printed inner entries (first entry, then the comma-separated
tail through the closing brace) parse back with any sufficient fuel. -/
theorem parseInnerEntries_print : ∀ (ts : Tally) (p : String × ℚ)
    (body tl rest : List Char) (fuel : ℕ),
    printInnerEntry p = some body → printInnerTail ts = some tl →
    ts.length < fuel →
    parseInnerEntries fuel (body ++ (tl ++ rest)) = some (p :: ts, rest) := by
  intro ts
  induction ts with
  | nil =>
    intro p body tl rest fuel hb htl hfuel
    unfold printInnerTail at htl
    simp only [Option.some.injEq] at htl
    subst htl
    obtain ⟨f, rfl⟩ : ∃ f, fuel = f + 1 := ⟨fuel - 1, by omega⟩
    unfold parseInnerEntries
    rw [parseInnerEntry_print hb _ (fun c hc => by
      rw [List.cons_append, List.head?_cons] at hc
      simp only [Option.some.injEq] at hc
      subst hc
      exact ⟨by decide, by decide⟩)]
    simp only []
    rw [show (nlc :: ' ' :: ' ' :: [rbrace]) ++ rest =
      nlc :: ' ' :: ' ' :: rbrace :: rest from rfl]
    rw [skipWs_cons_ws _ (by decide), skipWs_cons_ws _ (by decide),
      skipWs_cons_ws _ (by decide)]
    rw [skipWs_not_ws (fun c hc => by
      simp only [List.head?_cons, Option.some.injEq] at hc
      subst hc
      decide)]
    simp only []
    rw [if_neg (by decide), if_pos trivial]
  | cons p2 ts ih =>
    intro p body tl rest fuel hb htl hfuel
    obtain ⟨body2, tl2, hb2, htl2, rfl⟩ := printInnerTail_shape_cons htl
    obtain ⟨f, rfl⟩ : ∃ f, fuel = f + 1 := ⟨fuel - 1, by omega⟩
    unfold parseInnerEntries
    rw [parseInnerEntry_print hb _ (fun c hc => by
      rw [List.cons_append, List.head?_cons] at hc
      simp only [Option.some.injEq] at hc
      subst hc
      exact ⟨by decide, by decide⟩)]
    simp only []
    rw [List.cons_append]
    rw [skipWs_not_ws (fun c hc => by
      simp only [List.head?_cons, Option.some.injEq] at hc
      subst hc
      decide)]
    simp only []
    rw [if_pos trivial]
    obtain ⟨bcs, rfl⟩ := printInnerEntry_head hb2
    rw [show (nlc :: ' ' :: ' ' :: ' ' :: ' ' :: ((qmark :: bcs) ++ tl2)) ++ rest =
      nlc :: ' ' :: ' ' :: ' ' :: ' ' :: ((qmark :: bcs) ++ (tl2 ++ rest)) from by
        simp [List.append_assoc]]
    rw [skipWs_cons_ws _ (by decide), skipWs_cons_ws _ (by decide),
      skipWs_cons_ws _ (by decide), skipWs_cons_ws _ (by decide),
      skipWs_cons_ws _ (by decide)]
    rw [skipWs_not_ws (fun c hc => by
      rw [List.cons_append, List.head?_cons] at hc
      simp only [Option.some.injEq] at hc
      subst hc
      decide)]
    rw [ih p2 (qmark :: bcs) tl2 rest f hb2 htl2 (by simpa using hfuel)]

theorem printQ_ne_nil {q : ℚ} {qc : List Char} (h : printQ q = some qc) : qc ≠ [] := by
  obtain ⟨c, cs, rfl, -⟩ := printQ_head h
  simp

/-- A printed inner object parses back: `parseInnerObj` consumes it up
to and including its closing brace. -/
theorem parseInnerObj_print {t : Tally} {ic : List Char} (rest l : List Char)
    (hic : printInner t = some ic) (hl : skipWs l = ic ++ rest) :
    parseInnerObj l = some (t, rest) := by
  cases t with
  | nil =>
    unfold printInner at hic
    simp only [Option.some.injEq] at hic
    subst hic
    unfold parseInnerObj
    rw [hl]
    simp only [List.cons_append, List.nil_append]
    rw [if_pos trivial]
    rw [skipWs_not_ws (fun c hc => by
      simp only [List.head?_cons, Option.some.injEq] at hc
      subst hc
      decide)]
    simp only []
    rw [if_pos trivial]
  | cons p ts =>
    unfold printInner at hic
    simp only [] at hic
    rcases hb : printInnerEntry p with - | body <;> rw [hb] at hic
    · exact absurd hic (by simp)
    rcases htl : printInnerTail ts with - | tl <;> rw [htl] at hic
    · exact absurd hic (by simp)
    simp only [Option.some.injEq] at hic
    subst hic
    unfold parseInnerObj
    rw [hl]
    obtain ⟨bcs, rfl⟩ := printInnerEntry_head hb
    simp only [List.cons_append, List.append_assoc]
    rw [if_pos trivial]
    have hskip : skipWs (nlc :: ' ' :: ' ' :: ' ' :: ' ' :: qmark ::
        (bcs ++ (tl ++ rest))) = qmark :: (bcs ++ (tl ++ rest)) := by
      rw [skipWs_cons_ws _ (by decide), skipWs_cons_ws _ (by decide),
        skipWs_cons_ws _ (by decide), skipWs_cons_ws _ (by decide),
        skipWs_cons_ws _ (by decide)]
      exact skipWs_not_ws (fun c hc => by
        simp only [List.head?_cons, Option.some.injEq] at hc
        subst hc
        decide)
    rw [hskip]
    simp only []
    rw [if_neg (by decide)]
    have hfuel : ts.length < (qmark :: (bcs ++ (tl ++ rest))).length + 1 := by
      have h1 := printInnerTail_length htl
      simp only [List.length_cons, List.length_append]
      omega
    rw [← List.cons_append]
    exact parseInnerEntries_print ts p (qmark :: bcs) tl rest _ hb htl hfuel

theorem printInner_head {t : Tally} {ic : List Char} (h : printInner t = some ic) :
    ∃ ics, ic = lbrace :: ics := by
  cases t with
  | nil =>
    unfold printInner at h
    simp only [Option.some.injEq] at h
    exact ⟨[rbrace], h.symm⟩
  | cons p ts =>
    unfold printInner at h
    simp only [] at h
    rcases hb : printInnerEntry p with - | body <;> rw [hb] at h
    · exact absurd h (by simp)
    rcases htl : printInnerTail ts with - | tl <;> rw [htl] at h
    · exact absurd h (by simp)
    simp only [Option.some.injEq] at h
    exact ⟨_, h.symm⟩

theorem printOuterEntry_shape {p : String × Tally} {body : List Char}
    (h : printOuterEntry p = some body) :
    ∃ ic, printInner p.2 = some ic ∧ body = printStr p.1.data ++ ':' :: ' ' :: ic := by
  unfold printOuterEntry at h
  rcases hq : printInner p.2 with - | ic
  · rw [hq] at h
    exact absurd h (by simp)
  · rw [hq] at h
    simp only [Option.map, Option.some.injEq] at h
    exact ⟨ic, rfl, h.symm⟩

theorem printOuterEntry_head {p : String × Tally} {body : List Char}
    (h : printOuterEntry p = some body) : ∃ cs, body = qmark :: cs := by
  obtain ⟨ic, -, rfl⟩ := printOuterEntry_shape h
  refine ⟨((p.1.data.map escChar).flatten ++ [qmark]) ++ ':' :: ' ' :: ic, ?_⟩
  unfold printStr
  exact List.cons_append qmark _ _

/-- One printed outer entry (`"name": {…}`) parses back; the inner
object consumes its own closing brace, so nothing is required of what
follows. -/
theorem parseOuterEntry_print {p : String × Tally} {body : List Char}
    (hb : printOuterEntry p = some body) (rest : List Char) :
    parseOuterEntry (body ++ rest) = some (p, rest) := by
  obtain ⟨ic, hq, rfl⟩ := printOuterEntry_shape hb
  obtain ⟨ics, rfl⟩ := printInner_head hq
  unfold parseOuterEntry
  rw [List.append_assoc, List.cons_append, List.cons_append]
  rw [parseStr_print p.1.data (':' :: ' ' :: ((lbrace :: ics) ++ rest))]
  simp only []
  rw [skipWs_not_ws (fun c hc => by
    simp only [List.head?_cons, Option.some.injEq] at hc
    subst hc
    decide)]
  simp only []
  rw [if_pos trivial]
  rw [parseInnerObj_print rest (' ' :: ((lbrace :: ics) ++ rest)) hq (by
    rw [skipWs_cons_ws _ (by decide)]
    exact skipWs_not_ws (fun c hc => by
      rw [List.cons_append, List.head?_cons] at hc
      simp only [Option.some.injEq] at hc
      subst hc
      decide))]

theorem printOuterTail_shape_cons {p2 : String × Tally} {ts : Collection} {tl : List Char}
    (h : printOuterTail (p2 :: ts) = some tl) :
    ∃ body2 tl2, printOuterEntry p2 = some body2 ∧ printOuterTail ts = some tl2 ∧
      tl = ',' :: nlc :: ' ' :: ' ' :: (body2 ++ tl2) := by
  unfold printOuterTail at h
  rcases hb : printOuterEntry p2 with - | body2 <;> rw [hb] at h
  · exact absurd h (by simp)
  rcases htl : printOuterTail ts with - | tl2 <;> rw [htl] at h
  · exact absurd h (by simp)
  simp only [Option.some.injEq] at h
  exact ⟨body2, tl2, rfl, rfl, h.symm⟩

theorem printOuterTail_length {ts : Collection} {tl : List Char}
    (h : printOuterTail ts = some tl) : ts.length ≤ tl.length := by
  induction ts generalizing tl with
  | nil =>
    unfold printOuterTail at h
    simp only [Option.some.injEq] at h
    subst h
    simp
  | cons p2 ts ih =>
    obtain ⟨body2, tl2, -, htl2, rfl⟩ := printOuterTail_shape_cons h
    have := ih htl2
    simp only [List.length_cons, List.length_append]
    omega

theorem parseOuterEntries_print : ∀ (ts : Collection) (p : String × Tally)
    (body tl rest : List Char) (fuel : ℕ),
    printOuterEntry p = some body → printOuterTail ts = some tl →
    ts.length < fuel →
    parseOuterEntries fuel (body ++ (tl ++ rest)) = some (p :: ts, rest) := by
  intro ts
  induction ts with
  | nil =>
    intro p body tl rest fuel hb htl hfuel
    unfold printOuterTail at htl
    simp only [Option.some.injEq] at htl
    subst htl
    obtain ⟨f, rfl⟩ : ∃ f, fuel = f + 1 := ⟨fuel - 1, by omega⟩
    unfold parseOuterEntries
    rw [parseOuterEntry_print hb]
    simp only []
    rw [show (nlc :: [rbrace]) ++ rest = nlc :: rbrace :: rest from rfl]
    rw [skipWs_cons_ws _ (by decide)]
    rw [skipWs_not_ws (fun c hc => by
      simp only [List.head?_cons, Option.some.injEq] at hc
      subst hc
      decide)]
    simp only []
    rw [if_neg (by decide), if_pos trivial]
  | cons p2 ts ih =>
    intro p body tl rest fuel hb htl hfuel
    obtain ⟨body2, tl2, hb2, htl2, rfl⟩ := printOuterTail_shape_cons htl
    obtain ⟨f, rfl⟩ : ∃ f, fuel = f + 1 := ⟨fuel - 1, by omega⟩
    unfold parseOuterEntries
    rw [parseOuterEntry_print hb]
    simp only []
    rw [List.cons_append]
    rw [skipWs_not_ws (fun c hc => by
      simp only [List.head?_cons, Option.some.injEq] at hc
      subst hc
      decide)]
    simp only []
    rw [if_pos trivial]
    obtain ⟨bcs, rfl⟩ := printOuterEntry_head hb2
    rw [show (nlc :: ' ' :: ' ' :: ((qmark :: bcs) ++ tl2)) ++ rest =
      nlc :: ' ' :: ' ' :: ((qmark :: bcs) ++ (tl2 ++ rest)) from by
        simp [List.append_assoc]]
    rw [skipWs_cons_ws _ (by decide), skipWs_cons_ws _ (by decide),
      skipWs_cons_ws _ (by decide)]
    rw [skipWs_not_ws (fun c hc => by
      rw [List.cons_append, List.head?_cons] at hc
      simp only [Option.some.injEq] at hc
      subst hc
      decide)]
    rw [ih p2 (qmark :: bcs) tl2 rest f hb2 htl2 (by simpa using hfuel)]

/-- The whole printed document reads back to the collection it was
printed from. -/
theorem loads_dumps {C : Collection} {d : List Char}
    (hd : dumpsCollection C = some d) : loadsCollection d = C := by
  cases C with
  | nil =>
    unfold dumpsCollection at hd
    simp only [Option.some.injEq] at hd
    subst hd
    with_unfolding_all decide
  | cons p ts =>
    unfold dumpsCollection at hd
    simp only [] at hd
    rcases hb : printOuterEntry p with - | body <;> rw [hb] at hd
    · exact absurd hd (by simp)
    rcases htl : printOuterTail ts with - | tl <;> rw [htl] at hd
    · exact absurd hd (by simp)
    simp only [Option.some.injEq] at hd
    subst hd
    unfold loadsCollection parseDoc
    obtain ⟨bcs, rfl⟩ := printOuterEntry_head hb
    rw [skipWs_not_ws (fun c hc => by
      simp only [List.head?_cons, Option.some.injEq] at hc
      subst hc
      decide)]
    simp only []
    rw [if_pos trivial]
    have hskip : skipWs (nlc :: ' ' :: ' ' :: qmark :: (bcs ++ tl)) =
        qmark :: (bcs ++ tl) := by
      rw [skipWs_cons_ws _ (by decide), skipWs_cons_ws _ (by decide),
        skipWs_cons_ws _ (by decide)]
      exact skipWs_not_ws (fun c hc => by
        simp only [List.head?_cons, Option.some.injEq] at hc
        subst hc
        decide)
    simp only [List.cons_append, List.append_assoc] at hskip ⊢
    rw [hskip]
    simp only []
    rw [if_neg (by decide)]
    have hfuel : ts.length < (qmark :: (bcs ++ tl)).length + 1 := by
      have h1 := printOuterTail_length htl
      simp only [List.length_cons, List.length_append]
      omega
    have hmain := parseOuterEntries_print ts p (qmark :: bcs) tl []
      (((qmark :: bcs) ++ tl).length + 1) hb htl (by
        have h1 := printOuterTail_length htl
        simp only [List.length_append, List.length_cons]
        omega)
    rw [List.append_nil] at hmain
    rw [← List.cons_append]
    rw [hmain]
    rfl

/-- C6: serializing a collection with `save_to_gist`'s encoding and
reading it back with `load_from_gist`'s decoding restores the
collection exactly — same list names, same codes, same quantities — so
`save(load(save C))` produces the same document as `save C`. -/
theorem C6_persistence_round_trip (C : Collection) (d : List Char)
    (hd : dumpsCollection C = some d) :
    loadsCollection d = C ∧
    dumpsCollection (loadsCollection d) = dumpsCollection C := by
  have h := loads_dumps hd
  exact ⟨h, by rw [h]⟩

/-- Witness for C6 at a concrete two-list collection with an integer,
a negative fractional quantity and characters that need escaping. -/
theorem C6_persistence_round_trip_witness :
    loadsCollection ((dumpsCollection
      [("A", [("x", 3), ("y", (-5 : ℚ) / 2)]), ("B", [])]).getD []) =
      [("A", [("x", 3), ("y", (-5 : ℚ) / 2)]), ("B", [])] := by
  exact (C6_persistence_round_trip
    [("A", [("x", 3), ("y", (-5 : ℚ) / 2)]), ("B", [])]
    ((dumpsCollection [("A", [("x", 3), ("y", (-5 : ℚ) / 2)]), ("B", [])]).getD [])
    (by with_unfolding_all rfl)).1

end StockTake
